import Mathlib

/-!
BibleTime string manager: UTF-8 detection and upper-casing.

A shallow embedding of `src/backend/managers/btstringmgr.cpp`:

* `isUtf8` (the KDE-derived heuristic that decides whether a C string is
  multi-byte UTF-8), with its table `text_chars`;
* `BtStringMgr.upperUTF8` and `BtStringMgr.upperLatin1`, the in-place
  upper-casing entry points;

and of the methods `setModules`, `refreshContent` and `setKey` of
`src/frontend/keychooser/versekeychooser/cbiblekeychooser.cpp`.

A buffer is the list of bytes of the memory region that starts at the `char *`
argument. A read or a write at an index outside that region is undefined
behaviour in C; the embedding reports it (`none`, or `Fault.outOfBounds`)
instead of inventing a value. Indices and lengths are natural numbers: the
`int` index of `isUtf8` is taken not to overflow, that is, buffers are shorter
than 2^31 bytes.
-/

namespace Bibletime

/-- An `unsigned char`. -/
abbrev Byte := Fin 256

/-! ## `isUtf8` -/

/-- Marks characters which never appear in text. -/
def F : Nat := 0

/-- Marks characters which appear in plain ASCII texts. -/
def T : Nat := 1

/-- Marks characters which appear in ISO-8859 texts. -/
def I : Nat := 2

/-- Marks characters which appear in non-ISO extended ASCII (Mac, IBM PC). -/
def X : Nat := 3

/-- The table `text_chars[]` of `isUtf8`, row by row as in the source. -/
def text_chars : List Nat :=
  [ F, F, F, F, F, F, F, T, T, T, T, F, T, T, F, F,  -- 0x0X
    F, F, F, F, F, F, F, F, F, F, F, T, F, F, F, F,  -- 0x1X
    T, T, T, T, T, T, T, T, T, T, T, T, T, T, T, T,  -- 0x2X
    T, T, T, T, T, T, T, T, T, T, T, T, T, T, T, T,  -- 0x3X
    T, T, T, T, T, T, T, T, T, T, T, T, T, T, T, T,  -- 0x4X
    T, T, T, T, T, T, T, T, T, T, T, T, T, T, T, T,  -- 0x5X
    T, T, T, T, T, T, T, T, T, T, T, T, T, T, T, T,  -- 0x6X
    T, T, T, T, T, T, T, T, T, T, T, T, T, T, T, F,  -- 0x7X
    X, X, X, X, X, T, X, X, X, X, X, X, X, X, X, X,  -- 0x8X
    X, X, X, X, X, X, X, X, X, X, X, X, X, X, X, X,  -- 0x9X
    I, I, I, I, I, I, I, I, I, I, I, I, I, I, I, I,  -- 0xaX
    I, I, I, I, I, I, I, I, I, I, I, I, I, I, I, I,  -- 0xbX
    I, I, I, I, I, I, I, I, I, I, I, I, I, I, I, I,  -- 0xcX
    I, I, I, I, I, I, I, I, I, I, I, I, I, I, I, I,  -- 0xdX
    I, I, I, I, I, I, I, I, I, I, I, I, I, I, I, I,  -- 0xeX
    I, I, I, I, I, I, I, I, I, I, I, I, I, I, I, I ] -- 0xfX

/-- The lookup `text_chars[c]`. The index is below 256, the length of the table
(see `text_chars_length`), so the default is never returned. -/
def text_chars_at (c : Byte) : Nat := text_chars.getD c.val F

/-- The `if`/`else if` chain of `isUtf8` that sets `following` from a lead byte
`11xxxxxx`; `none` is its final `else return false`. -/
def following (c : Byte) : Option Nat :=
  if c.val &&& 0x20 = 0 then some 1        -- 110xxxxx
  else if c.val &&& 0x10 = 0 then some 2   -- 1110xxxx
  else if c.val &&& 0x08 = 0 then some 3   -- 11110xxx
  else if c.val &&& 0x04 = 0 then some 4   -- 111110xx
  else if c.val &&& 0x02 = 0 then some 5   -- 1111110x
  else none

/-- How the inner loop `for (n = 0; n < following; n++)` of `isUtf8` ends. -/
inductive Inner where
  /-- The terminator was read: `goto done`. -/
  | done
  /-- A byte that is not `10xxxxxx` was read: `return false`. -/
  | reject
  /-- The index left the buffer. -/
  | fault
  /-- All `following` bytes were consumed; `i` is the index of the last one. -/
  | next (i : Nat)
  deriving DecidableEq, Repr

/-- The inner loop of `isUtf8`. The first argument is `following - n`, the number
of iterations still to run; the second is `i` on entry of the iteration. -/
def innerLoop (buf : List Byte) : Nat → Nat → Inner
  | 0, i => Inner.next i
  | r + 1, i =>
    match buf[i + 1]? with
    | none => Inner.fault
    | some c =>
      if c.val = 0 then Inner.done
      else if c.val &&& 0x80 = 0 ∨ c.val &&& 0x40 ≠ 0 then Inner.reject
      else innerLoop buf r (i + 1)

/-- The outer loop `for (i = 0; (c = buf[i]); i++)` of `isUtf8`, from index `i`
with the current value of `gotone`. Every iteration uses one unit of fuel and
moves `i` forward, so `buf.length` units are never used up before the index
leaves the buffer (`outerLoop_fuel`). -/
def outerLoop (buf : List Byte) : Nat → Nat → Bool → Option Bool
  | 0, _, _ => none
  | fuel + 1, i, gotone =>
    match buf[i]? with
    | none => none
    | some c =>
      if c.val = 0 then some gotone
      else if c.val &&& 0x80 = 0 then
        if text_chars_at c ≠ T then some false
        else outerLoop buf fuel (i + 1) gotone
      else if c.val &&& 0x40 = 0 then some false
      else
        match following c with
        | none => some false
        | some k =>
          match innerLoop buf k i with
          | Inner.done => some gotone
          | Inner.reject => some false
          | Inner.fault => none
          | Inner.next j => outerLoop buf fuel (j + 1) true

/-- The function `isUtf8(buf)`: `some b` when it returns `b`, `none` when it reads
outside the buffer (which cannot happen when the buffer holds a zero byte,
`isUtf8_isSome`). -/
def isUtf8 (buf : List Byte) : Option Bool := outerLoop buf buf.length 0 false

/-! ## C strings and the C library -/

/-- What a call can end in instead of returning. -/
inductive Fault where
  /-- A read or a write outside the buffer (undefined behaviour in C). -/
  | outOfBounds
  /-- A failed `BT_ASSERT`. -/
  | assertionFailed
  /-- A call through a null pointer (undefined behaviour in C++). -/
  | nullPointer
  deriving DecidableEq, Repr

deriving instance DecidableEq for Except

/-- The bytes of a buffer before its first zero byte: the C string it holds. -/
def content : List Byte → List Byte
  | [] => []
  | c :: rest => if c.val = 0 then [] else c :: content rest

/-- The C function `strlen`: the index of the first zero byte; `none` when the
scan leaves the buffer. -/
def strlen : List Byte → Option Nat
  | [] => none
  | c :: rest => if c.val = 0 then some 0 else (strlen rest).map (· + 1)

/-- Reading a buffer as a C string, as `QString::fromUtf8(const char *)` and
`QString::fromLatin1(const char *)` do: the bytes before the terminator, `none`
when the scan leaves the buffer. -/
def cstring (text : List Byte) : Option (List Byte) :=
  (strlen text).map (fun _ => content text)

/-- The C function `strncpy(dest, src, n)`: exactly `n` bytes of `dest` are
written, the bytes of the C string `src` and, once its terminator is reached,
zero bytes. `src` is the byte array behind `constData()`, which is followed by a
terminator, so an exhausted `src` reads as zero. `none` when a write leaves
`dest`. -/
def strncpy : List Byte → List Byte → Nat → Option (List Byte)
  | dest, _, 0 => some dest
  | [], _, _ + 1 => none
  | _ :: dest, [], n + 1 => (strncpy dest [] n).map (fun d => 0 :: d)
  | _ :: dest, c :: src, n + 1 =>
    if c.val = 0 then (strncpy dest [] n).map (fun d => 0 :: d)
    else (strncpy dest src n).map (fun d => c :: d)

/-- The assignment `text[i] = v`. -/
def writeByte (text : List Byte) (i : Nat) (v : Byte) : Except Fault (List Byte) :=
  if i < text.length then Except.ok (text.set i v) else Except.error Fault.outOfBounds

/-- A result of the C library, with a scan or write outside the buffer as a
fault. -/
def orFault {α : Type} : Option α → Except Fault α
  | some a => Except.ok a
  | none => Except.error Fault.outOfBounds

/-- Modelled from the spec: the macro `BT_ASSERT` of `util/btassert.h`, which is
not among the sources. A fatal assertion: execution goes on when the condition
holds and ends when it does not. -/
def BT_ASSERT (cond : Bool) : Except Fault Unit :=
  if cond then Except.ok () else Except.error Fault.assertionFailed

/-! ## `BtStringMgr` -/

namespace BtStringMgr

/-- The method `BtStringMgr::upperUTF8(text, maxlen)`; the result is the buffer
after the call. The Qt conversions are parameters, from the C string read to the
byte array whose `constData()` is copied:
`utf8Upper s` is `QString::fromUtf8(s).toUpper().toUtf8()` and
`latin1Upper s` is `QString::fromLatin1(s).toUpper().toLatin1()`.
(`LIKELY` is a branch hint and is the value of its argument.) -/
def upperUTF8 (utf8Upper latin1Upper : List Byte → List Byte)
    (text : List Byte) (maxlen : Nat) : Except Fault (List Byte) := do
  let max ← if maxlen > 0 then pure maxlen else (· + 1) <$> orFault (strlen text)
  if max > 1 then
    let max := max - 1
    let utf8 ← orFault (isUtf8 text)
    let s ← orFault (cstring text)
    let text ← orFault (strncpy text (if utf8 then utf8Upper s else latin1Upper s) max)
    writeByte text max 0
  else if max = 1 then
    writeByte text 0 0
  else
    BT_ASSERT (max == 0)
    pure text

/-- The method `BtStringMgr::upperLatin1(text, maxlen)`; the result is the buffer
after the call, `latin1Upper` as in `upperUTF8`. -/
def upperLatin1 (latin1Upper : List Byte → List Byte)
    (text : List Byte) (maxlen : Nat) : Except Fault (List Byte) := do
  let max ← if maxlen > 0 then pure maxlen else orFault (strlen text)
  if max > 1 then
    let max := max - 1
    let s ← orFault (cstring text)
    let text ← orFault (strncpy text (latin1Upper s) max)
    writeByte text max 0
  else if max = 1 then
    writeByte text 0 0
  else
    BT_ASSERT (max == 0)
    pure text

/-- The method `BtStringMgr::supportsUnicode()`. -/
def supportsUnicode : Bool := true

end BtStringMgr

/-- The buffer `dest` after `strncpy(dest, src, n); dest[n] = '\0';`, where `s`
is the C string `src` points to: the first `n` bytes of `s`, zero bytes up to
index `n`, and the bytes of `dest` from index `n + 1` on. -/
def copied (dest s : List Byte) (n : Nat) : List Byte :=
  s.take n ++ List.replicate (n - s.length) 0 ++ 0 :: dest.drop (n + 1)

/-- The upper-cased, re-encoded text that `upperUTF8` copies into the buffer: the
C string behind `constData()` of the conversion that `isUtf8` selects, applied to
the C string in the buffer. It is the whole converted byte array when that holds
no zero byte (`content_eq_self`). -/
def upperUTF8Source (utf8Upper latin1Upper : List Byte → List Byte) (text : List Byte) :
    List Byte :=
  content (if isUtf8 text = some true then utf8Upper (content text)
    else latin1Upper (content text))

/-- The upper-cased, re-encoded text that `upperLatin1` copies into the buffer. -/
def upperLatin1Source (latin1Upper : List Byte → List Byte) (text : List Byte) : List Byte :=
  content (latin1Upper (content text))

/-- The text in the buffer is already fully upper-cased in its classified encoding:
the conversion that `isUtf8` selects maps it to itself. -/
def UppercasedUTF8 (utf8Upper latin1Upper : List Byte → List Byte) (text : List Byte) :
    Prop :=
  upperUTF8Source utf8Upper latin1Upper text = content text

/-- The text in the buffer is already fully upper-cased as Latin-1. -/
def UppercasedLatin1 (latin1Upper : List Byte → List Byte) (text : List Byte) : Prop :=
  upperLatin1Source latin1Upper text = content text

/-- The conversion works character by character: the converted text is the
concatenation of the conversions of the single bytes, and a non-zero byte is
converted to at least one byte, none of them zero. So it is for
`fromLatin1`/`toUpper`/`toLatin1`, where a character may upper-case to several
characters. -/
def CharacterWise (conv : List Byte → List Byte) : Prop :=
  ∃ g : Byte → List Byte,
    (∀ c : Byte, c ≠ 0 → g c ≠ [] ∧ ∀ b ∈ g c, b ≠ 0) ∧ ∀ s, conv s = s.flatMap g

/-- A conversion to evaluate truncation with: it upper-cases the text `é`
(`C3 A9`) to `É` (`C3 89`) and keeps every other text. -/
def accentUpper (s : List Byte) : List Byte :=
  if s = [0xC3, 0xA9] then [0xC3, 0x89] else s

/-- A conversion to evaluate the upper-casing methods with on Latin-1 text: byte by
byte, the letters `a`..`z` and the Latin-1 letters 0xE0-0xFE other than the
division sign 0xF7 lose 0x20, every other byte is kept. -/
def latin1CaseUpper (s : List Byte) : List Byte :=
  s.map (fun c =>
    if (0x61 ≤ c.val ∧ c.val ≤ 0x7A) ∨ (0xE0 ≤ c.val ∧ c.val ≤ 0xFE ∧ c.val ≠ 0xF7) then
      c - 0x20
    else c)

/-- A conversion to evaluate the upper-casing methods with at concrete inputs:
the letters `a`..`z` become `A`..`Z`, every other byte is kept. On ASCII text
both Qt conversions agree with it. -/
def asciiUpper (s : List Byte) : List Byte :=
  s.map (fun c => if 0x61 ≤ c.val ∧ c.val ≤ 0x7A then c - 0x20 else c)

/-! ## `CBibleKeyChooser` -/

/-- The values of `CSwordModuleInfo::type()`: the two enumerators that `setModules`
names, and any other. -/
inductive ModuleType where
  | Bible
  | Commentary
  | other (n : Nat)
  deriving DecidableEq, Repr

/-- The module object behind a `CSwordModuleInfo const *`, as `setModules` sees it:
its address, the value of `type()`, and whether the object is a
`CSwordBibleModuleInfo`, so that the `dynamic_cast` to that class succeeds. -/
structure CSwordModuleInfo where
  address : Nat
  type : ModuleType
  isBibleModuleInfo : Bool
  deriving DecidableEq, Repr

/-- The key object behind a `CSwordVerseKey *`. -/
structure CSwordVerseKey where
  address : Nat
  deriving DecidableEq, Repr

/-- The key object behind a `CSwordKey *`: its address and whether it is a
`CSwordVerseKey`. -/
structure CSwordKey where
  address : Nat
  isVerseKey : Bool
  deriving DecidableEq, Repr

/-- The methods of the key widget `BtBibleKeyWidget` that the chooser calls. The
class is not among the sources, so its methods are parameters; `W` is the state
of the widget. -/
structure BtBibleKeyWidget (W : Type) where
  setModule : W → Option CSwordModuleInfo → W
  setKey : W → Option CSwordVerseKey → W

/-- The members of a `CBibleKeyChooser` that `setModules` and `setKey` use. A
pointer is an `Option`, `none` being `nullptr`. -/
structure CBibleKeyChooser (W : Type) where
  m_modules : List CSwordModuleInfo
  m_key : Option CSwordVerseKey
  w_ref : Option W
  deriving DecidableEq, Repr

namespace CBibleKeyChooser

/-- The cast `dynamic_cast<CSwordBibleModuleInfo const *>(mod)`. -/
def dynamicCastBible (mod : CSwordModuleInfo) : Option CSwordModuleInfo :=
  if mod.isBibleModuleInfo then some mod else none

/-- The cast `dynamic_cast<CSwordVerseKey *>(key)`. -/
def dynamicCastVerseKey : Option CSwordKey → Option CSwordVerseKey
  | some key => if key.isVerseKey then some ⟨key.address⟩ else none
  | none => none

/-- The method `CBibleKeyChooser::setKey(key)`. The slots connected to the signal
`keyChanged` are outside the chooser and are taken not to call back into it. -/
def setKey {W : Type} (widget : BtBibleKeyWidget W) (chooser : CBibleKeyChooser W)
    (key : Option CSwordKey) : Except Fault (CBibleKeyChooser W) := do
  BT_ASSERT (dynamicCastVerseKey key).isSome
  match dynamicCastVerseKey key with
  | none => pure chooser
  | some verseKey =>
    let chooser := { chooser with m_key := some verseKey }
    match chooser.w_ref with
    | none => Except.error Fault.nullPointer
    | some w => pure { chooser with w_ref := some (widget.setKey w chooser.m_key) }

/-- The method `CBibleKeyChooser::refreshContent()`: `setKey(m_key)`. -/
def refreshContent {W : Type} (widget : BtBibleKeyWidget W) (chooser : CBibleKeyChooser W) :
    Except Fault (CBibleKeyChooser W) :=
  setKey widget chooser (chooser.m_key.map (fun k => ⟨k.address, true⟩))

/-- The body of the loop `for (auto const * const mod : modules)` of `setModules`,
on the list `m_modules`. -/
def appendIfBible (m_modules : List CSwordModuleInfo) (mod : CSwordModuleInfo) :
    List CSwordModuleInfo :=
  if mod.type = ModuleType.Bible ∨ mod.type = ModuleType.Commentary then
    match dynamicCastBible mod with
    | some bible => m_modules ++ [bible]
    | none => m_modules
  else m_modules

/-- The method `CBibleKeyChooser::setModules(modules, refresh)`. `QList::first()`
on an empty list reads outside the list. -/
def setModules {W : Type} (widget : BtBibleKeyWidget W) (chooser : CBibleKeyChooser W)
    (modules : List CSwordModuleInfo) (refresh : Bool) :
    Except Fault (CBibleKeyChooser W) := do
  let chooser := { chooser with m_modules := [] }
  let chooser := { chooser with m_modules := modules.foldl appendIfBible chooser.m_modules }
  let chooser ←
    match chooser.w_ref with
    | none => pure chooser
    | some w =>
      match chooser.m_modules.head? with
      | none => Except.error Fault.outOfBounds
      | some first =>
        pure { chooser with w_ref := some (widget.setModule w (dynamicCastBible first)) }
  if refresh then refreshContent widget chooser else pure chooser

end CBibleKeyChooser

/-- A module that `setModules` keeps: its type is Bible or Commentary and it is a
Bible-module object. -/
def keptModule (mod : CSwordModuleInfo) : Bool :=
  (decide (mod.type = ModuleType.Bible) || decide (mod.type = ModuleType.Commentary)) &&
    mod.isBibleModuleInfo

/-- A key widget that records the module and the key it was given last, to
evaluate the chooser with at concrete inputs. -/
def recordingWidget : BtBibleKeyWidget (Option CSwordModuleInfo × Option CSwordVerseKey) where
  setModule := fun w mod => (mod, w.2)
  setKey := fun w key => (w.1, key)

/-! ## The vocabulary of the specification -/

/-- A permitted single-byte character: bell, backspace, tab, line feed
(0x07-0x0A), form feed, carriage return, escape, or printable ASCII
(0x20-0x7E). -/
def permitted (c : Byte) : Prop :=
  (0x07 ≤ c.val ∧ c.val ≤ 0x0A) ∨ c.val = 0x0C ∨ c.val = 0x0D ∨ c.val = 0x1B ∨
    (0x20 ≤ c.val ∧ c.val ≤ 0x7E)

instance (c : Byte) : Decidable (permitted c) := by unfold permitted; infer_instance

/-- A continuation byte `10xxxxxx`. -/
def isContinuation (c : Byte) : Prop := 0x80 ≤ c.val ∧ c.val ≤ 0xBF

instance (c : Byte) : Decidable (isContinuation c) := by unfold isContinuation; infer_instance

/-- The number of continuation bytes a lead byte declares: 1 for `110xxxxx`,
2 for `1110xxxx`, 3 for `11110xxx`, 4 for `111110xx`, 5 for `1111110x`; `none`
for every other byte (among them `0xFE` and `0xFF`). -/
def declared (c : Byte) : Option Nat :=
  if 0xC0 ≤ c.val ∧ c.val ≤ 0xDF then some 1
  else if 0xE0 ≤ c.val ∧ c.val ≤ 0xEF then some 2
  else if 0xF0 ≤ c.val ∧ c.val ≤ 0xF7 then some 3
  else if 0xF8 ≤ c.val ∧ c.val ≤ 0xFB then some 4
  else if 0xFC ≤ c.val ∧ c.val ≤ 0xFD then some 5
  else none

/-- A well-formed multi-byte sequence: a lead byte followed by its full declared
number of continuation bytes. -/
def WellFormedSeq (u : List Byte) : Prop :=
  ∃ c conts, u = c :: conts ∧ declared c = some conts.length ∧ ∀ b ∈ conts, isContinuation b

/-- A truncated multi-byte sequence: a lead byte followed by fewer continuation
bytes than it declares. -/
def TruncatedSeq (u : List Byte) : Prop :=
  ∃ c conts k, u = c :: conts ∧ declared c = some k ∧ conts.length < k ∧
    ∀ b ∈ conts, isContinuation b

/-- The text `s` contains at least one well-formed multi-byte sequence. -/
def ContainsSeq (s : List Byte) : Prop :=
  ∃ pre u post, s = pre ++ u ++ post ∧ WellFormedSeq u

/-- The byte `x`, met between `pre` and `post`, is part of a well-formed
multi-byte sequence of the text `pre ++ x :: post`. -/
def InSeq (pre : List Byte) (x : Byte) (post : List Byte) : Prop :=
  ∃ p1 u1 u2 p2, pre = p1 ++ u1 ∧ post = u2 ++ p2 ∧ WellFormedSeq (u1 ++ x :: u2)

/-- The byte `x`, met between `pre` and `post`, is part of a truncated multi-byte
sequence that runs to the end of the text `pre ++ x :: post`. -/
def InTruncatedTail (pre : List Byte) (x : Byte) (post : List Byte) : Prop :=
  ∃ p1 u1, pre = p1 ++ u1 ∧ TruncatedSeq (u1 ++ x :: post)

/-- Every byte of `s` is a permitted single-byte character or part of a
well-formed multi-byte sequence. -/
def EveryByteCovered (s : List Byte) : Prop :=
  ∀ pre x post, s = pre ++ x :: post → permitted x ∨ InSeq pre x post

/-- Every byte of `s` is a permitted single-byte character, part of a
well-formed multi-byte sequence, or part of a truncated sequence at the end. -/
def EveryByteCoveredOrTail (s : List Byte) : Prop :=
  ∀ pre x post, s = pre ++ x :: post →
    permitted x ∨ InSeq pre x post ∨ InTruncatedTail pre x post

/-- The text is a run of permitted single-byte characters and complete
well-formed multi-byte sequences; the flag tells whether there is a sequence
among them. -/
inductive Accepted : List Byte → Bool → Prop where
  | nil : Accepted [] false
  | single (a : Byte) (s : List Byte) (b : Bool) :
      permitted a → Accepted s b → Accepted (a :: s) b
  | seq (u s : List Byte) (b : Bool) :
      WellFormedSeq u → Accepted s b → Accepted (u ++ s) true

/-- The text is an accepted run, or an accepted run followed by one truncated
sequence; the flag is that of the accepted run. -/
def Tokenised (s : List Byte) (b : Bool) : Prop :=
  ∃ pre, Accepted pre b ∧ (s = pre ∨ ∃ u, TruncatedSeq u ∧ s = pre ++ u)

/-- The byte with the value `n` (modulo 256). -/
def byte (n : Nat) : Byte := ⟨n % 256, Nat.mod_lt n (by decide)⟩

/-- A Unicode scalar value: a code point up to U+10FFFF that is not a
surrogate. -/
def IsScalarValue (cp : Nat) : Prop := cp < 0xD800 ∨ (0xE000 ≤ cp ∧ cp ≤ 0x10FFFF)

instance (cp : Nat) : Decidable (IsScalarValue cp) := by unfold IsScalarValue; infer_instance

/-- The well-formed UTF-8 encoding of a code point: one byte up to U+007F, two up
to U+07FF, three up to U+FFFF, four beyond. -/
def utf8Encode (cp : Nat) : List Byte :=
  if cp < 0x80 then [byte cp]
  else if cp < 0x800 then [byte (0xC0 + cp / 64), byte (0x80 + cp % 64)]
  else if cp < 0x10000 then
    [byte (0xE0 + cp / 4096), byte (0x80 + cp / 64 % 64), byte (0x80 + cp % 64)]
  else
    [byte (0xF0 + cp / 262144), byte (0x80 + cp / 4096 % 64), byte (0x80 + cp / 64 % 64),
      byte (0x80 + cp % 64)]

/-- The UTF-8 encoding of a text, code point by code point. -/
def utf8EncodeAll : List Nat → List Byte
  | [] => []
  | cp :: cps => utf8Encode cp ++ utf8EncodeAll cps

/-! ## The scan, seen from the current position -/

/-- The two loops of `isUtf8` as one walk over the bytes from the current index
on: `scan 0 g` is the outer loop with `gotone = g`, and `scan p g` for `p > 0` is
the inner loop with `p` continuation bytes still to read. `isUtf8_eq_scan` shows
that `isUtf8 buf = scan 0 false buf`. -/
def scan : Nat → Bool → List Byte → Option Bool
  | _, _, [] => none
  | 0, g, c :: rest =>
    if c.val = 0 then some g
    else if c.val &&& 0x80 = 0 then
      if text_chars_at c ≠ T then some false else scan 0 g rest
    else if c.val &&& 0x40 = 0 then some false
    else
      match following c with
      | none => some false
      | some k => if k = 0 then scan 0 true rest else scan k g rest
  | p + 1, g, c :: rest =>
    if c.val = 0 then some g
    else if c.val &&& 0x80 = 0 ∨ c.val &&& 0x40 ≠ 0 then some false
    else if p = 0 then scan 0 true rest else scan p g rest

/-! ## Byte classes -/

/-- The classes of bytes that `isUtf8` tells apart. -/
inductive ByteClass where
  /-- The zero byte. -/
  | terminator
  /-- A permitted single-byte character. -/
  | permitted
  /-- Any other non-zero 7-bit byte. -/
  | otherSevenBit
  /-- A continuation byte `10xxxxxx`. -/
  | continuation
  /-- A lead byte that declares `k` continuation bytes. -/
  | lead (k : Nat)
  /-- The bytes 0xFE and 0xFF. -/
  | invalid
  deriving DecidableEq, Repr

/-- The class of a byte. -/
def byteClass (c : Byte) : ByteClass :=
  if c.val = 0 then ByteClass.terminator
  else if permitted c then ByteClass.permitted
  else if c.val ≤ 0x7F then ByteClass.otherSevenBit
  else if isContinuation c then ByteClass.continuation
  else
    match declared c with
    | some k => ByteClass.lead k
    | none => ByteClass.invalid

/-- The walk `scan` over the classes of the bytes. -/
def scanClass : Nat → Bool → List ByteClass → Option Bool
  | _, _, [] => none
  | _, g, ByteClass.terminator :: _ => some g
  | 0, g, ByteClass.permitted :: rest => scanClass 0 g rest
  | 0, g, ByteClass.lead k :: rest => scanClass k g rest
  | 0, _, _ :: _ => some false
  | p + 1, g, ByteClass.continuation :: rest =>
    if p = 0 then scanClass 0 true rest else scanClass p g rest
  | _ + 1, _, _ :: _ => some false

/-! ## Bytes -/

set_option maxRecDepth 100000

theorem text_chars_length : text_chars.length = 256 := by decide

theorem land80 : ∀ c : Byte, (c.val &&& 0x80 = 0) ↔ c.val < 0x80 := by decide

theorem land40 : ∀ c : Byte, 0x80 ≤ c.val → ((c.val &&& 0x40 = 0) ↔ c.val < 0xC0) := by decide

theorem text_chars_permitted :
    ∀ c : Byte, c.val ≠ 0 → c.val < 0x80 → (text_chars_at c = T ↔ permitted c) := by decide

theorem following_eq_declared : ∀ c : Byte, 0xC0 ≤ c.val → following c = declared c := by decide

theorem getElem?_drop_cons (buf : List Byte) (i : Nat) (c : Byte) (h : buf[i]? = some c) :
    buf.drop i = c :: buf.drop (i + 1) := by
  have hi : i < buf.length := by
    by_contra hn
    rw [List.getElem?_eq_none (by omega)] at h
    exact absurd h (by simp)
  rw [List.getElem?_eq_getElem hi] at h
  rw [List.drop_eq_getElem_cons hi]
  simp at h
  rw [h]

theorem getElem?_drop_nil (buf : List Byte) (i : Nat) (h : buf[i]? = none) :
    buf.drop i = [] := by
  rw [List.getElem?_eq_none_iff] at h
  exact List.drop_eq_nil_of_le h

/-- The inner loop and the walk agree. -/
theorem innerLoop_scan (buf : List Byte) (g : Bool) :
    ∀ r i, scan (r + 1) g (buf.drop (i + 1)) =
      match innerLoop buf (r + 1) i with
      | Inner.done => some g
      | Inner.reject => some false
      | Inner.fault => none
      | Inner.next j => scan 0 true (buf.drop (j + 1)) := by
  intro r
  induction r with
  | zero =>
    intro i
    unfold innerLoop
    cases h : buf[i + 1]? with
    | none => simp [getElem?_drop_nil buf (i + 1) h, scan]
    | some c =>
      rw [getElem?_drop_cons buf (i + 1) c h]
      simp only [scan, innerLoop]
      split_ifs <;> simp
  | succ r ih =>
    intro i
    unfold innerLoop
    cases h : buf[i + 1]? with
    | none => simp [getElem?_drop_nil buf (i + 1) h, scan]
    | some c =>
      rw [getElem?_drop_cons buf (i + 1) c h]
      simp only [scan]
      split_ifs <;> first | contradiction | exact ih (i + 1) | simp

theorem innerLoop_next_le (buf : List Byte) :
    ∀ r i j, innerLoop buf r i = Inner.next j → i ≤ j := by
  intro r
  induction r with
  | zero =>
    intro i j h
    simp [innerLoop] at h
    omega
  | succ r ih =>
    intro i j h
    unfold innerLoop at h
    cases hc : buf[i + 1]? with
    | none => simp [hc] at h
    | some c =>
      simp only [hc] at h
      split_ifs at h
      have := ih (i + 1) j h
      omega

theorem following_ne_zero : ∀ c : Byte, following c ≠ some 0 := by decide

/-- The outer loop and the walk agree, whenever the fuel covers the bytes from
index `i` on. -/
theorem outerLoop_eq_scan (buf : List Byte) :
    ∀ fuel i g, buf.length - i ≤ fuel → outerLoop buf fuel i g = scan 0 g (buf.drop i) := by
  intro fuel
  induction fuel with
  | zero =>
    intro i g h
    have hd : buf.drop i = [] := List.drop_eq_nil_of_le (by omega)
    simp [outerLoop, scan, hd]
  | succ fuel ih =>
    intro i g h
    unfold outerLoop
    cases hc : buf[i]? with
    | none => simp [getElem?_drop_nil buf i hc, scan]
    | some c =>
      have hi : i < buf.length := by
        by_contra hn
        rw [List.getElem?_eq_none (by omega)] at hc
        exact absurd hc (by simp)
      rw [getElem?_drop_cons buf i c hc]
      simp only [scan]
      by_cases h0 : c.val = 0
      · simp [h0]
      · simp only [h0, if_false]
        by_cases h80 : c.val &&& 0x80 = 0
        · simp only [h80, if_true]
          by_cases ht : text_chars_at c ≠ T
          · simp [ht]
          · simp only [ht, if_false]
            exact ih (i + 1) g (by omega)
        · simp only [h80, if_false]
          by_cases h40 : c.val &&& 0x40 = 0
          · simp [h40]
          · simp only [h40, if_false]
            cases hf : following c with
            | none => rfl
            | some k =>
              have hk : k ≠ 0 := by
                intro hz
                exact following_ne_zero c (by rw [hf, hz])
              obtain ⟨r, rfl⟩ : ∃ r, k = r + 1 := ⟨k - 1, by omega⟩
              simp only [hk, if_false]
              rw [innerLoop_scan buf g r i]
              cases hin : innerLoop buf (r + 1) i with
              | done => rfl
              | reject => rfl
              | fault => rfl
              | next j =>
                have := innerLoop_next_le buf (r + 1) i j hin
                exact ih (j + 1) true (by omega)

/-- The function `isUtf8` is the walk from the first byte with `gotone = false`. -/
theorem isUtf8_eq_scan (buf : List Byte) : isUtf8 buf = scan 0 false buf := by
  unfold isUtf8
  rw [outerLoop_eq_scan buf buf.length 0 false (by omega)]
  simp

/-- More fuel than the length of the buffer changes nothing. -/
theorem outerLoop_fuel (buf : List Byte) (fuel : Nat) (h : buf.length ≤ fuel) :
    outerLoop buf fuel 0 false = isUtf8 buf := by
  rw [isUtf8_eq_scan, outerLoop_eq_scan buf fuel 0 false (by omega)]
  simp

/-! ## One step of the walk, by the class of the byte read -/

theorem permitted_facts : ∀ c : Byte, permitted c →
    c.val ≠ 0 ∧ c.val &&& 0x80 = 0 ∧ text_chars_at c = T := by decide

theorem rejected_ascii_facts : ∀ c : Byte, c.val ≠ 0 → c.val < 0x80 → ¬ permitted c →
    c.val &&& 0x80 = 0 ∧ text_chars_at c ≠ T := by decide

theorem continuation_facts : ∀ c : Byte, isContinuation c →
    c.val ≠ 0 ∧ c.val &&& 0x80 ≠ 0 ∧ c.val &&& 0x40 = 0 := by decide

theorem lead_facts : ∀ c : Byte, 0xC0 ≤ c.val →
    c.val ≠ 0 ∧ c.val &&& 0x80 ≠ 0 ∧ c.val &&& 0x40 ≠ 0 := by decide

theorem declared_lead : ∀ c : Byte, ∀ k, declared c = some k → 0xC0 ≤ c.val ∧ k ≠ 0 := by
  intro c k h
  have key : ∀ c : Byte, declared c = none ∨ (0xC0 ≤ c.val ∧ declared c ≠ some 0) := by decide
  rcases key c with hn | ⟨h1, h2⟩
  · rw [hn] at h
    exact absurd h (by simp)
  · refine ⟨h1, ?_⟩
    intro hz
    exact h2 (by rw [h, hz])

theorem declared_none_of_lt : ∀ c : Byte, c.val < 0xC0 → declared c = none := by decide

theorem declared_none_of_ge : ∀ c : Byte, 0xFE ≤ c.val → declared c = none := by decide

theorem not_continuation_facts : ∀ c : Byte, c.val ≠ 0 → ¬ isContinuation c →
    (c.val &&& 0x80 = 0 ∨ c.val &&& 0x40 ≠ 0) := by decide

theorem scan_terminator (p : Nat) (g : Bool) (tl : List Byte) :
    scan p g (0 :: tl) = some g := by
  cases p <;> simp [scan]

theorem scan_permitted (a : Byte) (g : Bool) (tl : List Byte) (h : permitted a) :
    scan 0 g (a :: tl) = scan 0 g tl := by
  obtain ⟨h0, h80, ht⟩ := permitted_facts a h
  simp [scan, h0, h80, ht]

theorem scan_rejected_ascii (a : Byte) (g : Bool) (tl : List Byte)
    (h0 : a.val ≠ 0) (h7 : a.val < 0x80) (h : ¬ permitted a) (p : Nat) :
    scan p g (a :: tl) = some false := by
  obtain ⟨h80, ht⟩ := rejected_ascii_facts a h0 h7 h
  cases p <;> simp [scan, h0, h80, ht]

theorem scan_continuation_first (a : Byte) (g : Bool) (tl : List Byte)
    (h : isContinuation a) : scan 0 g (a :: tl) = some false := by
  obtain ⟨h0, h80, h40⟩ := continuation_facts a h
  simp [scan, h0, h80, h40]

theorem scan_lead (c : Byte) (k : Nat) (g : Bool) (tl : List Byte)
    (h : declared c = some k) : scan 0 g (c :: tl) = scan k g tl := by
  obtain ⟨hc, hk⟩ := declared_lead c k h
  obtain ⟨h0, h80, h40⟩ := lead_facts c hc
  rw [← following_eq_declared c hc] at h
  simp [scan, h0, h80, h40, h, hk]

theorem scan_no_declared (c : Byte) (g : Bool) (tl : List Byte)
    (hc : 0xC0 ≤ c.val) (h : declared c = none) : scan 0 g (c :: tl) = some false := by
  obtain ⟨h0, h80, h40⟩ := lead_facts c hc
  rw [← following_eq_declared c hc] at h
  simp [scan, h0, h80, h40, h]

theorem scan_continuation (a : Byte) (p : Nat) (g : Bool) (tl : List Byte)
    (h : isContinuation a) :
    scan (p + 1) g (a :: tl) = if p = 0 then scan 0 true tl else scan p g tl := by
  obtain ⟨h0, h80, h40⟩ := continuation_facts a h
  simp [scan, h0, h80, h40]

theorem scan_not_continuation (a : Byte) (p : Nat) (g : Bool) (tl : List Byte)
    (h0 : a.val ≠ 0) (h : ¬ isContinuation a) : scan (p + 1) g (a :: tl) = some false := by
  have := not_continuation_facts a h0 h
  simp only [scan, h0, if_false]
  rw [if_pos this]

/-! ## The walk over sequences and accepted prefixes -/

theorem scan_conts_complete (g : Bool) (tl : List Byte) :
    ∀ (conts : List Byte) (p : Nat), (∀ b ∈ conts, isContinuation b) → conts.length = p + 1 →
      scan (p + 1) g (conts ++ tl) = scan 0 true tl := by
  intro conts
  induction conts with
  | nil => intro p _ hl; simp at hl
  | cons a conts ih =>
    intro p hall hl
    have ha : isContinuation a := hall a (by simp)
    have hrest : ∀ b ∈ conts, isContinuation b := fun b hb => hall b (by simp [hb])
    rw [List.cons_append, scan_continuation a p g _ ha]
    by_cases hp : p = 0
    · subst hp
      have : conts = [] := by
        simp at hl
        exact hl
      simp [this]
    · obtain ⟨q, rfl⟩ : ∃ q, p = q + 1 := ⟨p - 1, by omega⟩
      simp only [hp, if_false]
      exact ih q hrest (by simp at hl; omega)

theorem scan_conts_truncated (g : Bool) (rest : List Byte) :
    ∀ (conts : List Byte) (p : Nat), (∀ b ∈ conts, isContinuation b) → conts.length < p →
      scan p g (conts ++ 0 :: rest) = some g := by
  intro conts
  induction conts with
  | nil => intro p _ _; exact scan_terminator p g rest
  | cons a conts ih =>
    intro p hall hl
    have ha : isContinuation a := hall a (by simp)
    have hrest : ∀ b ∈ conts, isContinuation b := fun b hb => hall b (by simp [hb])
    simp only [List.length_cons] at hl
    obtain ⟨q, rfl⟩ : ∃ q, p = q + 1 := ⟨p - 1, by omega⟩
    rw [List.cons_append, scan_continuation a q g _ ha]
    have hq : q ≠ 0 := by omega
    simp only [hq, if_false]
    exact ih q hrest (by omega)

theorem scan_wellFormed (u : List Byte) (g : Bool) (tl : List Byte) (h : WellFormedSeq u) :
    scan 0 g (u ++ tl) = scan 0 true tl := by
  obtain ⟨c, conts, rfl, hd, hall⟩ := h
  obtain ⟨_, hk⟩ := declared_lead c _ hd
  rw [List.cons_append, scan_lead c _ g _ hd]
  obtain ⟨q, hq⟩ : ∃ q, conts.length = q + 1 := ⟨conts.length - 1, by omega⟩
  rw [hq]
  exact scan_conts_complete g tl conts q hall hq

theorem scan_truncated (u : List Byte) (g : Bool) (rest : List Byte) (h : TruncatedSeq u) :
    scan 0 g (u ++ 0 :: rest) = some g := by
  obtain ⟨c, conts, k, rfl, hd, hlt, hall⟩ := h
  rw [List.cons_append, scan_lead c k g _ hd]
  exact scan_conts_truncated g rest conts k hall hlt

theorem scan_accepted (pre : List Byte) (b : Bool) (h : Accepted pre b) :
    ∀ (g : Bool) (tl : List Byte), scan 0 g (pre ++ tl) = scan 0 (g || b) tl := by
  induction h with
  | nil => intro g tl; simp
  | single a s b ha _ ih =>
    intro g tl
    rw [List.cons_append, scan_permitted a g _ ha]
    exact ih g tl
  | seq u s b hu _ ih =>
    intro g tl
    rw [List.append_assoc, scan_wellFormed u g _ hu, ih true tl]
    simp

/-! ## Null-terminated buffers -/

theorem val_eq_zero_iff (c : Byte) : c.val = 0 ↔ c = 0 := by
  constructor
  · intro h
    exact Fin.ext h
  · intro h
    rw [h]
    rfl

theorem content_ne_zero (buf : List Byte) : ∀ b ∈ content buf, b ≠ 0 := by
  induction buf with
  | nil => intro b hb; simp [content] at hb
  | cons c rest ih =>
    intro b hb
    unfold content at hb
    by_cases hc : c.val = 0
    · simp [hc] at hb
    · simp only [hc, if_false, List.mem_cons] at hb
      rcases hb with rfl | hb
      · exact fun h => hc ((val_eq_zero_iff b).2 h)
      · exact ih b hb

theorem content_append (s rest : List Byte) (hs : ∀ b ∈ s, b ≠ 0) :
    content (s ++ 0 :: rest) = s := by
  induction s with
  | nil => simp [content]
  | cons c s ih =>
    have hc : c.val ≠ 0 := fun h => hs c (by simp) ((val_eq_zero_iff c).1 h)
    have ih1 := ih (fun b hb => hs b (by simp [hb]))
    rw [List.cons_append]
    unfold content
    simp only [hc, if_false]
    rw [ih1]

/-- A buffer that holds a zero byte is its C string, the terminator, and the
bytes behind it. -/
theorem buffer_split (buf : List Byte) (h : (0 : Byte) ∈ buf) :
    ∃ rest, buf = content buf ++ 0 :: rest := by
  induction buf with
  | nil => simp at h
  | cons c tl ih =>
    by_cases hc : c.val = 0
    · refine ⟨tl, ?_⟩
      have : c = 0 := (val_eq_zero_iff c).1 hc
      simp [content, this]
    · have hc0 : c ≠ 0 := fun h0 => hc ((val_eq_zero_iff c).2 h0)
      have hmem : (0 : Byte) ∈ tl := by
        rcases List.mem_cons.1 h with h1 | h1
        · exact absurd h1.symm hc0
        · exact h1
      obtain ⟨rest, hrest⟩ := ih hmem
      refine ⟨rest, ?_⟩
      simp only [content, hc, if_false, List.cons_append]
      rw [← hrest]

/-! ## Bytes that end the walk with `false` wherever they are met -/

theorem scan_step (c : Byte) (p : Nat) (g : Bool) (t : List Byte) (hc : c.val ≠ 0) :
    scan p g (c :: t) = some false ∨ ∃ p1 g1, scan p g (c :: t) = scan p1 g1 t := by
  cases p with
  | zero =>
    simp only [scan, hc, if_false]
    split_ifs
    · left; rfl
    · right; exact ⟨0, g, rfl⟩
    · left; rfl
    · cases following c with
      | none => left; rfl
      | some k =>
        right
        by_cases hk : k = 0
        · exact ⟨0, true, by simp [hk]⟩
        · exact ⟨k, g, by simp [hk]⟩
  | succ p =>
    simp only [scan, hc, if_false]
    split_ifs
    · left; rfl
    · right; exact ⟨0, true, rfl⟩
    · right; exact ⟨p, g, rfl⟩

theorem scan_rejecting (x : Byte) (hx : ∀ p g tl, scan p g (x :: tl) = some false)
    (tl : List Byte) :
    ∀ (s : List Byte) (p : Nat) (g : Bool), x ∈ s → (∀ b ∈ s, b ≠ 0) →
      scan p g (s ++ tl) = some false := by
  intro s
  induction s with
  | nil => intro p g h; simp at h
  | cons c s ih =>
    intro p g hmem hs
    by_cases hxc : x = c
    · subst hxc
      exact hx p g _
    · have hm : x ∈ s := by
        rcases List.mem_cons.1 hmem with h1 | h1
        · exact absurd h1 hxc
        · exact h1
      have hc : c.val ≠ 0 := fun h => hs c (by simp) ((val_eq_zero_iff c).1 h)
      rcases scan_step c p g (s ++ tl) hc with h1 | ⟨p1, g1, h1⟩
      · exact h1
      · rw [List.cons_append, h1]
        exact ih p1 g1 hm (fun b hb => hs b (by simp [hb]))

theorem scan_rejected_ascii_mem (x : Byte) (s tl : List Byte) (p : Nat) (g : Bool)
    (hmem : x ∈ s) (hs : ∀ b ∈ s, b ≠ 0) (h7 : x.val ≤ 0x7F) (hx : ¬ permitted x) :
    scan p g (s ++ tl) = some false := by
  have h0 : x.val ≠ 0 := fun h => hs x hmem ((val_eq_zero_iff x).1 h)
  exact scan_rejecting x
    (fun p g tl => scan_rejected_ascii x g tl h0 (by omega) hx p) tl s p g hmem hs

theorem scan_rejected_FE_mem (x : Byte) (s tl : List Byte) (p : Nat) (g : Bool)
    (hmem : x ∈ s) (hs : ∀ b ∈ s, b ≠ 0) (hx : 0xFE ≤ x.val) :
    scan p g (s ++ tl) = some false := by
  refine scan_rejecting x ?_ tl s p g hmem hs
  intro p g tl
  cases p with
  | zero => exact scan_no_declared x g tl (by omega) (declared_none_of_ge x hx)
  | succ p =>
    refine scan_not_continuation x p g tl (by omega) ?_
    unfold isContinuation
    omega

theorem scan_conts_rejected (g : Bool) (x : Byte) (tl : List Byte)
    (hx0 : x ≠ 0) (hx : ¬ isContinuation x) :
    ∀ (conts : List Byte) (p : Nat), (∀ b ∈ conts, isContinuation b) → conts.length < p →
      scan p g (conts ++ x :: tl) = some false := by
  have hxv : x.val ≠ 0 := fun h => hx0 ((val_eq_zero_iff x).1 h)
  intro conts
  induction conts with
  | nil =>
    intro p _ hl
    obtain ⟨q, rfl⟩ : ∃ q, p = q + 1 := ⟨p - 1, by simp at hl; omega⟩
    exact scan_not_continuation x q g tl hxv hx
  | cons a conts ih =>
    intro p hall hl
    have ha : isContinuation a := hall a (by simp)
    have hrest : ∀ b ∈ conts, isContinuation b := fun b hb => hall b (by simp [hb])
    simp only [List.length_cons] at hl
    obtain ⟨q, rfl⟩ : ∃ q, p = q + 1 := ⟨p - 1, by omega⟩
    rw [List.cons_append, scan_continuation a q g _ ha]
    have hq : q ≠ 0 := by omega
    simp only [hq, if_false]
    exact ih q hrest (by omega)

theorem scan_ascii_false (rest : List Byte) :
    ∀ s : List Byte, (∀ b ∈ s, b ≠ 0) → (∀ b ∈ s, b.val ≤ 0x7F) →
      scan 0 false (s ++ 0 :: rest) = some false := by
  intro s
  induction s with
  | nil => intro _ _; exact scan_terminator 0 false rest
  | cons c s ih =>
    intro h0 h7
    have hc : c.val ≠ 0 := fun h => h0 c (by simp) ((val_eq_zero_iff c).1 h)
    have hc7 : c.val ≤ 0x7F := h7 c (by simp)
    by_cases hp : permitted c
    · rw [List.cons_append, scan_permitted c false _ hp]
      exact ih (fun b hb => h0 b (by simp [hb])) (fun b hb => h7 b (by simp [hb]))
    · exact scan_rejected_ascii c false _ hc (by omega) hp 0

/-! ## Texts as runs of characters and sequences -/

theorem permitted_lt : ∀ c : Byte, permitted c → c.val < 0x80 := by decide

theorem not_lead_of_permitted (c : Byte) (k : Nat) (hp : permitted c)
    (hd : declared c = some k) : False := by
  have h1 := permitted_lt c hp
  have h2 := (declared_lead c k hd).1
  omega

theorem not_lead_of_continuation (c : Byte) (k : Nat) (hp : isContinuation c)
    (hd : declared c = some k) : False := by
  have h2 := (declared_lead c k hd).1
  unfold isContinuation at hp
  omega

/-- The head is the only byte of a well-formed sequence that declares a length. -/
theorem lead_in_wellFormed (u p1 c2 : List Byte) (y : Byte) (k : Nat)
    (hu : WellFormedSeq u) (hsplit : u = p1 ++ y :: c2) (hy : declared y = some k) :
    p1 = [] := by
  obtain ⟨c, conts, rfl, _, hall⟩ := hu
  cases p1 with
  | nil => rfl
  | cons a p1 =>
    exfalso
    simp only [List.cons_append, List.cons.injEq] at hsplit
    have hmem : y ∈ conts := by rw [hsplit.2]; simp
    exact not_lead_of_continuation y k (hall y hmem) hy

theorem lead_in_truncated (u p1 c2 : List Byte) (y : Byte) (k : Nat)
    (hu : TruncatedSeq u) (hsplit : u = p1 ++ y :: c2) (hy : declared y = some k) :
    p1 = [] := by
  obtain ⟨c, conts, _, rfl, _, _, hall⟩ := hu
  cases p1 with
  | nil => rfl
  | cons a p1 =>
    exfalso
    simp only [List.cons_append, List.cons.injEq] at hsplit
    have hmem : y ∈ conts := by rw [hsplit.2]; simp
    exact not_lead_of_continuation y k (hall y hmem) hy

theorem wellFormed_head (y : Byte) (t : List Byte) (h : WellFormedSeq (y :: t)) :
    declared y = some t.length ∧ ∀ b ∈ t, isContinuation b := by
  obtain ⟨c, conts, heq, hd, hall⟩ := h
  simp only [List.cons.injEq] at heq
  obtain ⟨rfl, rfl⟩ := heq
  exact ⟨hd, hall⟩

theorem truncated_head (y : Byte) (t : List Byte) (h : TruncatedSeq (y :: t)) :
    ∃ k, declared y = some k ∧ t.length < k ∧ ∀ b ∈ t, isContinuation b := by
  obtain ⟨c, conts, k, heq, hd, hlt, hall⟩ := h
  simp only [List.cons.injEq] at heq
  obtain ⟨rfl, rfl⟩ := heq
  exact ⟨k, hd, hlt, hall⟩

theorem wellFormed_ne_nil (u : List Byte) (h : WellFormedSeq u) : u ≠ [] := by
  obtain ⟨c, conts, rfl, _, _⟩ := h
  simp

theorem inSeq_prepend (w pre : List Byte) (x : Byte) (post : List Byte)
    (h : InSeq pre x post) : InSeq (w ++ pre) x post := by
  obtain ⟨p1, u1, u2, p2, h1, h2, hw⟩ := h
  exact ⟨w ++ p1, u1, u2, p2, by rw [h1, List.append_assoc], h2, hw⟩

theorem inTruncatedTail_prepend (w pre : List Byte) (x : Byte) (post : List Byte)
    (h : InTruncatedTail pre x post) : InTruncatedTail (w ++ pre) x post := by
  obtain ⟨p1, u1, h1, hw⟩ := h
  exact ⟨w ++ p1, u1, by rw [h1, List.append_assoc], hw⟩

theorem tokenised_nil : Tokenised [] false := ⟨[], Accepted.nil, Or.inl rfl⟩

theorem tokenised_single (a : Byte) (s : List Byte) (b : Bool) (ha : permitted a)
    (h : Tokenised s b) : Tokenised (a :: s) b := by
  obtain ⟨pre, hacc, hs⟩ := h
  refine ⟨a :: pre, Accepted.single a pre b ha hacc, ?_⟩
  rcases hs with rfl | ⟨u, hu, rfl⟩
  · exact Or.inl rfl
  · exact Or.inr ⟨u, hu, rfl⟩

theorem tokenised_seq (u s : List Byte) (b : Bool) (hu : WellFormedSeq u)
    (h : Tokenised s b) : Tokenised (u ++ s) true := by
  obtain ⟨pre, hacc, hs⟩ := h
  refine ⟨u ++ pre, Accepted.seq u pre b hu hacc, ?_⟩
  rcases hs with rfl | ⟨t, ht, rfl⟩
  · exact Or.inl rfl
  · exact Or.inr ⟨t, ht, by rw [List.append_assoc]⟩

theorem tokenised_truncated (u : List Byte) (hu : TruncatedSeq u) : Tokenised u false :=
  ⟨[], Accepted.nil, Or.inr ⟨u, hu, rfl⟩⟩

/-- The walk over a tokenised text ends at the terminator with the flag of the
text joined to `gotone`. -/
theorem scan_tokenised (s : List Byte) (b g : Bool) (rest : List Byte) (h : Tokenised s b) :
    scan 0 g (s ++ 0 :: rest) = some (g || b) := by
  obtain ⟨pre, hacc, hs⟩ := h
  rcases hs with rfl | ⟨u, hu, rfl⟩
  · rw [scan_accepted _ b hacc]
    exact scan_terminator 0 _ rest
  · rw [List.append_assoc, scan_accepted pre b hacc]
    exact scan_truncated u _ rest hu

theorem scan_pending_true (g : Bool) (rest : List Byte) :
    ∀ (s : List Byte) (p : Nat), (∀ b ∈ s, b ≠ 0) → 0 < p →
      scan p g (s ++ 0 :: rest) = some true →
      (∃ conts s1, s = conts ++ s1 ∧ conts.length = p ∧ (∀ b ∈ conts, isContinuation b) ∧
          scan 0 true (s1 ++ 0 :: rest) = some true) ∨
        (s.length < p ∧ (∀ b ∈ s, isContinuation b) ∧ g = true) := by
  intro s
  induction s with
  | nil =>
    intro p _ hp h
    right
    rw [List.nil_append, scan_terminator] at h
    refine ⟨by simpa using hp, by simp, by simpa using h⟩
  | cons a s ih =>
    intro p hs hp h
    obtain ⟨q, rfl⟩ : ∃ q, p = q + 1 := ⟨p - 1, by omega⟩
    have ha0 : a.val ≠ 0 := fun h0 => hs a (by simp) ((val_eq_zero_iff a).1 h0)
    have hs1 : ∀ b ∈ s, b ≠ 0 := fun b hb => hs b (by simp [hb])
    by_cases hca : isContinuation a
    · rw [List.cons_append, scan_continuation a q g _ hca] at h
      by_cases hq : q = 0
      · subst hq
        simp only [if_true] at h
        left
        exact ⟨[a], s, rfl, rfl, by simpa using hca, h⟩
      · simp only [hq, if_false] at h
        rcases ih q hs1 (by omega) h with ⟨conts, s1, h1, h2, h3, h4⟩ | ⟨h1, h2, h3⟩
        · left
          refine ⟨a :: conts, s1, by rw [h1]; rfl, by simp [h2], ?_, h4⟩
          intro b hb
          rcases List.mem_cons.1 hb with rfl | hb
          · exact hca
          · exact h3 b hb
        · right
          refine ⟨by simp; omega, ?_, h3⟩
          intro b hb
          rcases List.mem_cons.1 hb with rfl | hb
          · exact hca
          · exact h2 b hb
    · rw [List.cons_append, scan_not_continuation a q g _ ha0 hca] at h
      simp at h

theorem byte_cases (c : Byte) :
    c.val = 0 ∨ permitted c ∨ (c.val < 0x80 ∧ ¬ permitted c) ∨ isContinuation c ∨
      0xC0 ≤ c.val := by
  by_cases hp : permitted c
  · exact Or.inr (Or.inl hp)
  · unfold isContinuation
    by_cases h7 : c.val < 0x80
    · exact Or.inr (Or.inr (Or.inl ⟨h7, hp⟩))
    · by_cases hC : 0xC0 ≤ c.val
      · exact Or.inr (Or.inr (Or.inr (Or.inr hC)))
      · exact Or.inr (Or.inr (Or.inr (Or.inl ⟨by omega, by omega⟩)))

/-- When the walk answers true the text is tokenised, and `gotone` was set or the
text holds a sequence. -/
theorem tokenised_of_scan_true (rest : List Byte) :
    ∀ (n : Nat) (s : List Byte) (g : Bool), s.length ≤ n → (∀ b ∈ s, b ≠ 0) →
      scan 0 g (s ++ 0 :: rest) = some true → ∃ b, Tokenised s b ∧ (g || b) = true := by
  intro n
  induction n with
  | zero =>
    intro s g hl _ h
    have hs : s = [] := List.length_eq_zero.1 (by omega)
    subst hs
    rw [List.nil_append, scan_terminator] at h
    exact ⟨false, tokenised_nil, by simpa using h⟩
  | succ n ih =>
    intro s g hl hs h
    cases s with
    | nil =>
      rw [List.nil_append, scan_terminator] at h
      exact ⟨false, tokenised_nil, by simpa using h⟩
    | cons c s =>
      have hc0 : c.val ≠ 0 := fun h0 => hs c (by simp) ((val_eq_zero_iff c).1 h0)
      have hs1 : ∀ b ∈ s, b ≠ 0 := fun b hb => hs b (by simp [hb])
      have hl1 : s.length ≤ n := by simp at hl; omega
      rw [List.cons_append] at h
      rcases byte_cases c with h0 | hp | ⟨h7, hp⟩ | hcont | hlead
      · exact absurd h0 hc0
      · rw [scan_permitted c g _ hp] at h
        obtain ⟨b, hb, hg⟩ := ih s g hl1 hs1 h
        exact ⟨b, tokenised_single c s b hp hb, hg⟩
      · rw [scan_rejected_ascii c g _ hc0 h7 hp 0] at h
        simp at h
      · rw [scan_continuation_first c g _ hcont] at h
        simp at h
      · cases hd : declared c with
        | none =>
          rw [scan_no_declared c g _ hlead hd] at h
          simp at h
        | some k =>
          rw [scan_lead c k g _ hd] at h
          have hk := (declared_lead c k hd).2
          rcases scan_pending_true g rest s k hs1 (by omega) h with
            ⟨conts, s1, h1, h2, h3, h4⟩ | ⟨h1, h2, h3⟩
          · have hl2 : s1.length ≤ n := by
              rw [h1] at hl1
              simp at hl1
              omega
            have hs2 : ∀ b ∈ s1, b ≠ 0 := fun b hb => hs1 b (by rw [h1]; simp [hb])
            obtain ⟨b, hb, _⟩ := ih s1 true hl2 hs2 h4
            refine ⟨true, ?_, by simp⟩
            have hw : WellFormedSeq (c :: conts) := ⟨c, conts, rfl, by rw [hd, h2], h3⟩
            have := tokenised_seq (c :: conts) s1 b hw hb
            rw [h1]
            exact this
          · refine ⟨false, tokenised_truncated (c :: s) ⟨c, s, k, rfl, hd, h1, h2⟩, ?_⟩
            simpa using h3

theorem inSeq_of_single (c : Byte) (p : List Byte) (x : Byte) (q : List Byte)
    (hc : permitted c) (h : InSeq (c :: p) x q) : InSeq p x q := by
  obtain ⟨p1, u1, u2, p2, h1, h2, hw⟩ := h
  cases p1 with
  | nil =>
    exfalso
    rw [List.nil_append] at h1
    rw [← h1, List.cons_append] at hw
    exact not_lead_of_permitted c _ hc (wellFormed_head c _ hw).1
  | cons a p1 =>
    simp only [List.cons_append, List.cons.injEq] at h1
    exact ⟨p1, u1, u2, p2, h1.2, h2, hw⟩

theorem inTruncatedTail_of_single (c : Byte) (p : List Byte) (x : Byte) (q : List Byte)
    (hc : permitted c) (h : InTruncatedTail (c :: p) x q) : InTruncatedTail p x q := by
  obtain ⟨p1, u1, h1, hw⟩ := h
  cases p1 with
  | nil =>
    exfalso
    rw [List.nil_append] at h1
    rw [← h1, List.cons_append] at hw
    obtain ⟨k, hk, _⟩ := truncated_head c _ hw
    exact not_lead_of_permitted c k hc hk
  | cons a p1 =>
    simp only [List.cons_append, List.cons.injEq] at h1
    exact ⟨p1, u1, h1.2, hw⟩

theorem inSeq_of_seq (u p : List Byte) (x : Byte) (q : List Byte)
    (hu : WellFormedSeq u) (h : InSeq (u ++ p) x q) : InSeq p x q := by
  obtain ⟨p1, u1, u2, p2, h1, h2, hw⟩ := h
  rcases List.append_eq_append_iff.1 h1 with ⟨a1, ha1, ha2⟩ | ⟨c1, hc1, hc2⟩
  · exact ⟨a1, u1, u2, p2, ha2, h2, hw⟩
  · cases c1 with
    | nil =>
      rw [List.nil_append] at hc2
      exact ⟨[], u1, u2, p2, by rw [hc2]; rfl, h2, hw⟩
    | cons y c1 =>
      exfalso
      rw [hc2, List.cons_append, List.cons_append] at hw
      obtain ⟨hy, _⟩ := wellFormed_head y _ hw
      have hp1 := lead_in_wellFormed u p1 c1 y _ hu hc1 hy
      subst hp1
      rw [List.nil_append] at hc1
      rw [hc1] at hu
      obtain ⟨hy2, _⟩ := wellFormed_head y _ hu
      rw [hy] at hy2
      have hlen := Option.some.inj hy2
      simp only [List.length_append, List.length_cons] at hlen
      omega

theorem inTruncatedTail_of_seq (u p : List Byte) (x : Byte) (q : List Byte)
    (hu : WellFormedSeq u) (h : InTruncatedTail (u ++ p) x q) : InTruncatedTail p x q := by
  obtain ⟨p1, u1, h1, hw⟩ := h
  rcases List.append_eq_append_iff.1 h1 with ⟨a1, ha1, ha2⟩ | ⟨c1, hc1, hc2⟩
  · exact ⟨a1, u1, ha2, hw⟩
  · cases c1 with
    | nil =>
      rw [List.nil_append] at hc2
      exact ⟨[], u1, by rw [hc2]; rfl, hw⟩
    | cons y c1 =>
      exfalso
      rw [hc2, List.cons_append, List.cons_append] at hw
      obtain ⟨k, hy, hlt, _⟩ := truncated_head y _ hw
      have hp1 := lead_in_wellFormed u p1 c1 y _ hu hc1 hy
      subst hp1
      rw [List.nil_append] at hc1
      rw [hc1] at hu
      obtain ⟨hy2, _⟩ := wellFormed_head y _ hu
      rw [hy] at hy2
      have hlen := Option.some.inj hy2
      simp only [List.length_append, List.length_cons] at hlen hlt
      omega

/-- Every byte of a tokenised text is covered. -/
theorem covered_of_accepted (pre : List Byte) (b : Bool) (h : Accepted pre b) :
    ∀ t : List Byte,
      (∀ p x q, t = p ++ x :: q → permitted x ∨ InSeq p x q ∨ InTruncatedTail p x q) →
      EveryByteCoveredOrTail (pre ++ t) := by
  induction h with
  | nil =>
    intro t ht
    simpa [EveryByteCoveredOrTail] using ht
  | single a s b ha _ ih =>
    intro t ht p x q hsplit
    cases p with
    | nil =>
      simp only [List.cons_append, List.nil_append, List.cons.injEq] at hsplit
      rw [← hsplit.1]
      exact Or.inl ha
    | cons a1 p =>
      simp only [List.cons_append, List.cons.injEq] at hsplit
      rcases ih t ht p x q hsplit.2 with h1 | h1 | h1
      · exact Or.inl h1
      · exact Or.inr (Or.inl (inSeq_prepend [a1] p x q h1))
      · exact Or.inr (Or.inr (inTruncatedTail_prepend [a1] p x q h1))
  | seq u s b hu _ ih =>
    intro t ht p x q hsplit
    rw [List.append_assoc] at hsplit
    rcases List.append_eq_append_iff.1 hsplit with ⟨a1, ha1, ha2⟩ | ⟨c1, hc1, hc2⟩
    · rcases ih t ht a1 x q ha2 with h1 | h1 | h1
      · exact Or.inl h1
      · rw [ha1]
        exact Or.inr (Or.inl (inSeq_prepend u a1 x q h1))
      · rw [ha1]
        exact Or.inr (Or.inr (inTruncatedTail_prepend u a1 x q h1))
    · cases c1 with
      | nil =>
        rw [List.nil_append] at hc2
        rw [List.append_nil] at hc1
        rcases ih t ht [] x q (by rw [← hc2]; rfl) with h1 | h1 | h1
        · exact Or.inl h1
        · have := inSeq_prepend u [] x q h1
          rw [List.append_nil, hc1] at this
          exact Or.inr (Or.inl this)
        · have := inTruncatedTail_prepend u [] x q h1
          rw [List.append_nil, hc1] at this
          exact Or.inr (Or.inr this)
      | cons y c1 =>
        simp only [List.cons_append, List.cons.injEq] at hc2
        obtain ⟨hxy, hq⟩ := hc2
        subst hxy
        refine Or.inr (Or.inl ⟨[], p, c1, s ++ t, rfl, hq, ?_⟩)
        rw [← hc1]
        exact hu

theorem covered_of_tokenised (s : List Byte) (b : Bool) (h : Tokenised s b) :
    EveryByteCoveredOrTail s := by
  obtain ⟨pre, hacc, hs⟩ := h
  rcases hs with rfl | ⟨u, hu, rfl⟩
  · have := covered_of_accepted _ b hacc [] (by intro p x q h; simp at h)
    simpa using this
  · refine covered_of_accepted pre b hacc u ?_
    intro p x q hsplit
    refine Or.inr (Or.inr ⟨[], p, rfl, ?_⟩)
    rw [← hsplit]
    exact hu

/-- A text whose bytes are all covered is tokenised. -/
theorem tokenised_of_covered :
    ∀ (n : Nat) (s : List Byte), s.length ≤ n → EveryByteCoveredOrTail s →
      ∃ b, Tokenised s b := by
  intro n
  induction n with
  | zero =>
    intro s hl _
    have hs : s = [] := List.length_eq_zero.1 (by omega)
    subst hs
    exact ⟨false, tokenised_nil⟩
  | succ n ih =>
    intro s hl hcov
    cases s with
    | nil => exact ⟨false, tokenised_nil⟩
    | cons c s =>
      have hl1 : s.length ≤ n := by simp at hl; omega
      rcases hcov [] c s rfl with hp | hseq | htr
      · have hcov1 : EveryByteCoveredOrTail s := by
          intro p x q hs
          rcases hcov (c :: p) x q (by rw [hs]; rfl) with h1 | h1 | h1
          · exact Or.inl h1
          · exact Or.inr (Or.inl (inSeq_of_single c p x q hp h1))
          · exact Or.inr (Or.inr (inTruncatedTail_of_single c p x q hp h1))
        obtain ⟨b, hb⟩ := ih s hl1 hcov1
        exact ⟨b, tokenised_single c s b hp hb⟩
      · obtain ⟨p1, u1, u2, p2, h1, h2, hw⟩ := hseq
        have hp1 : p1 = [] ∧ u1 = [] := by
          have := congrArg List.length h1
          simp at this
          exact ⟨List.length_eq_zero.1 (by omega), List.length_eq_zero.1 (by omega)⟩
        obtain ⟨rfl, rfl⟩ := hp1
        rw [List.nil_append] at hw
        have hcov2 : EveryByteCoveredOrTail p2 := by
          intro p x q hs
          rcases hcov ((c :: u2) ++ p) x q (by rw [h2, hs]; simp) with h3 | h3 | h3
          · exact Or.inl h3
          · exact Or.inr (Or.inl (inSeq_of_seq (c :: u2) p x q hw h3))
          · exact Or.inr (Or.inr (inTruncatedTail_of_seq (c :: u2) p x q hw h3))
        have hl2 : p2.length ≤ n := by
          rw [h2] at hl1
          simp at hl1
          omega
        obtain ⟨b, hb⟩ := ih p2 hl2 hcov2
        refine ⟨true, ?_⟩
        have := tokenised_seq (c :: u2) p2 b hw hb
        rw [h2]
        exact this
      · obtain ⟨p1, u1, h1, hw⟩ := htr
        have hp1 : p1 = [] ∧ u1 = [] := by
          have := congrArg List.length h1
          simp at this
          exact ⟨List.length_eq_zero.1 (by omega), List.length_eq_zero.1 (by omega)⟩
        obtain ⟨rfl, rfl⟩ := hp1
        rw [List.nil_append] at hw
        exact ⟨false, tokenised_truncated (c :: s) hw⟩

theorem containsSeq_nil : ¬ ContainsSeq [] := by
  rintro ⟨pre, u, post, h, hu⟩
  have hne := wellFormed_ne_nil u hu
  have := congrArg List.length h
  simp only [List.length_nil, List.length_append] at this
  exact hne (List.length_eq_zero.1 (by omega))

theorem containsSeq_of_accepted (pre : List Byte) (b : Bool) (h : Accepted pre b) :
    b = true → ContainsSeq pre := by
  induction h with
  | nil => intro hb; simp at hb
  | single a s b _ _ ih =>
    intro hb
    obtain ⟨p, u, q, h1, hu⟩ := ih hb
    exact ⟨a :: p, u, q, by rw [h1]; rfl, hu⟩
  | seq u s b hu _ _ =>
    intro _
    exact ⟨[], u, s, rfl, hu⟩

theorem containsSeq_of_tokenised (s : List Byte) (h : Tokenised s true) : ContainsSeq s := by
  obtain ⟨pre, hacc, hs⟩ := h
  obtain ⟨p, u, q, h1, hu⟩ := containsSeq_of_accepted pre true hacc rfl
  rcases hs with rfl | ⟨t, _, rfl⟩
  · exact ⟨p, u, q, h1, hu⟩
  · exact ⟨p, u, q ++ t, by rw [h1]; simp, hu⟩

theorem not_containsSeq_truncated (t : List Byte) (ht : TruncatedSeq t) : ¬ ContainsSeq t := by
  rintro ⟨p, u, q, h1, hu⟩
  obtain ⟨y, conts, rfl, hy, _⟩ := hu
  rw [List.append_assoc] at h1
  have hp := lead_in_truncated t p (conts ++ q) y _ ht (by rw [h1]; rfl) hy
  subst hp
  rw [List.nil_append, List.cons_append] at h1
  rw [h1] at ht
  obtain ⟨k, hk, hlt, _⟩ := truncated_head y _ ht
  rw [hy] at hk
  have hlen := Option.some.inj hk
  simp only [List.length_append] at hlt
  omega

/-- A tokenised text that contains a well-formed sequence has the flag set. -/
theorem flag_of_containsSeq (pre : List Byte) (b : Bool) (h : Accepted pre b) :
    ∀ t : List Byte, (t = [] ∨ TruncatedSeq t) → ContainsSeq (pre ++ t) → b = true := by
  induction h with
  | nil =>
    intro t ht hc
    exfalso
    rw [List.nil_append] at hc
    rcases ht with rfl | ht
    · exact containsSeq_nil hc
    · exact not_containsSeq_truncated t ht hc
  | single a s b ha _ ih =>
    intro t ht hc
    obtain ⟨p, u, q, h1, hu⟩ := hc
    cases p with
    | nil =>
      exfalso
      obtain ⟨y, conts, rfl, hy, _⟩ := hu
      simp only [List.cons_append, List.nil_append, List.cons.injEq] at h1
      rw [h1.1] at ha
      exact not_lead_of_permitted y _ ha hy
    | cons a1 p =>
      simp only [List.cons_append, List.cons.injEq] at h1
      exact ih t ht ⟨p, u, q, h1.2, hu⟩
  | seq u s b _ _ _ =>
    intro _ _ _
    rfl

theorem tokenised_flag (s : List Byte) (b : Bool) (h : Tokenised s b)
    (hc : ContainsSeq s) : b = true := by
  obtain ⟨pre, hacc, hs⟩ := h
  rcases hs with rfl | ⟨t, ht, rfl⟩
  · exact flag_of_containsSeq _ b hacc [] (Or.inl rfl) (by simpa using hc)
  · exact flag_of_containsSeq pre b hacc t (Or.inr ht) hc

/-- On a buffer with a zero byte the walk returns. -/
theorem scan_isSome (rest : List Byte) :
    ∀ (s : List Byte) (p : Nat) (g : Bool), (∀ b ∈ s, b ≠ 0) →
      ∃ b, scan p g (s ++ 0 :: rest) = some b := by
  intro s
  induction s with
  | nil => intro p g _; exact ⟨g, scan_terminator p g rest⟩
  | cons c s ih =>
    intro p g hs
    have hc : c.val ≠ 0 := fun h => hs c (by simp) ((val_eq_zero_iff c).1 h)
    rcases scan_step c p g (s ++ 0 :: rest) hc with h1 | ⟨p1, g1, h1⟩
    · exact ⟨false, h1⟩
    · obtain ⟨b, hb⟩ := ih p1 g1 (fun b hb => hs b (by simp [hb]))
      exact ⟨b, by rw [List.cons_append, h1, hb]⟩

/-- On a buffer with a zero byte `isUtf8` returns: it never reads outside the
buffer and never runs out of fuel. -/
theorem isUtf8_isSome (buf : List Byte) (h0 : (0 : Byte) ∈ buf) :
    ∃ b, isUtf8 buf = some b := by
  obtain ⟨rest, hrest⟩ := buffer_split buf h0
  rw [isUtf8_eq_scan, hrest]
  exact scan_isSome rest (content buf) 0 false (content_ne_zero buf)

theorem isUtf8_tokenised_iff (buf : List Byte) (h0 : (0 : Byte) ∈ buf) :
    isUtf8 buf = some true ↔ Tokenised (content buf) true := by
  obtain ⟨rest, hrest⟩ := buffer_split buf h0
  rw [isUtf8_eq_scan]
  constructor
  · intro h
    rw [hrest] at h
    obtain ⟨b, hb, hg⟩ :=
      tokenised_of_scan_true rest _ (content buf) false (le_refl _) (content_ne_zero buf) h
    simp only [Bool.false_or] at hg
    rw [hg] at hb
    exact hb
  · intro h
    have := scan_tokenised (content buf) true false rest h
    rw [← hrest] at this
    simpa using this

theorem wellFormed_last (u1 : List Byte) (x : Byte) (h : WellFormedSeq (u1 ++ [x])) :
    isContinuation x := by
  obtain ⟨c, conts, heq, hd, hall⟩ := h
  cases u1 with
  | nil =>
    exfalso
    simp only [List.nil_append, List.cons.injEq] at heq
    rw [← heq.2] at hd
    exact (declared_lead c 0 hd).2 rfl
  | cons a u1 =>
    simp only [List.cons_append, List.cons.injEq] at heq
    exact hall x (by rw [← heq.2]; simp)

/-! ## UTF-8 encodings -/

theorem declared_by_range : ∀ c : Byte,
    (0xC0 ≤ c.val ∧ c.val ≤ 0xDF → declared c = some 1) ∧
    (0xE0 ≤ c.val ∧ c.val ≤ 0xEF → declared c = some 2) ∧
    (0xF0 ≤ c.val ∧ c.val ≤ 0xF7 → declared c = some 3) := by decide

theorem byte_val (n : Nat) (h : n < 256) : (byte n).val = n := Nat.mod_eq_of_lt h

theorem continuation_byte (n : Nat) (h : n < 64) : isContinuation (byte (0x80 + n)) := by
  unfold isContinuation
  rw [byte_val _ (by omega)]
  omega

/-- The encoding of a code point from U+0080 on is a well-formed multi-byte
sequence for `isUtf8`. -/
theorem wellFormed_utf8Encode (cp : Nat) (h1 : 0x80 ≤ cp) (h2 : cp ≤ 0x10FFFF) :
    WellFormedSeq (utf8Encode cp) := by
  unfold utf8Encode
  have h80 : ¬ cp < 0x80 := by omega
  simp only [h80, if_false]
  by_cases h800 : cp < 0x800
  · simp only [h800, if_true]
    refine ⟨_, _, rfl, ?_, ?_⟩
    · refine (declared_by_range _).1 ?_
      rw [byte_val _ (by omega)]
      omega
    · intro b hb
      simp only [List.mem_singleton] at hb
      rw [hb]
      exact continuation_byte _ (Nat.mod_lt _ (by decide))
  · simp only [h800, if_false]
    by_cases h10000 : cp < 0x10000
    · simp only [h10000, if_true]
      refine ⟨_, _, rfl, ?_, ?_⟩
      · refine (declared_by_range _).2.1 ?_
        rw [byte_val _ (by omega)]
        omega
      · intro b hb
        simp only [List.mem_cons, List.mem_singleton, List.not_mem_nil, or_false] at hb
        rcases hb with rfl | rfl
        · exact continuation_byte _ (Nat.mod_lt _ (by decide))
        · exact continuation_byte _ (Nat.mod_lt _ (by decide))
    · simp only [h10000, if_false]
      refine ⟨_, _, rfl, ?_, ?_⟩
      · refine (declared_by_range _).2.2 ?_
        rw [byte_val _ (by omega)]
        omega
      · intro b hb
        simp only [List.mem_cons, List.mem_singleton, List.not_mem_nil, or_false] at hb
        rcases hb with rfl | rfl | rfl
        · exact continuation_byte _ (Nat.mod_lt _ (by decide))
        · exact continuation_byte _ (Nat.mod_lt _ (by decide))
        · exact continuation_byte _ (Nat.mod_lt _ (by decide))

/-- A UTF-8 text whose single-byte characters are permitted is an accepted run;
the flag tells whether a code point from U+0080 on is encoded. -/
theorem accepted_utf8EncodeAll :
    ∀ cps : List Nat, (∀ cp ∈ cps, cp ≤ 0x10FFFF) →
      (∀ b ∈ utf8EncodeAll cps, b.val < 0x80 → permitted b) →
      Accepted (utf8EncodeAll cps) (cps.any (fun cp => decide (0x80 ≤ cp))) := by
  intro cps
  induction cps with
  | nil => intro _ _; exact Accepted.nil
  | cons cp cps ih =>
    intro hle hperm
    have ih1 := ih (fun c hc => hle c (by simp [hc]))
      (fun b hb => hperm b (by simp [utf8EncodeAll, hb]))
    by_cases h : cp < 0x80
    · have henc : utf8Encode cp = [byte cp] := by simp [utf8Encode, h]
      have hany : (cp :: cps).any (fun cp => decide (0x80 ≤ cp)) =
          cps.any (fun cp => decide (0x80 ≤ cp)) := by
        simp [List.any_cons]
        omega
      rw [hany]
      simp only [utf8EncodeAll, henc, List.singleton_append]
      refine Accepted.single _ _ _ ?_ ih1
      refine hperm _ (by simp [utf8EncodeAll, henc]) ?_
      rw [byte_val _ (by omega)]
      exact h
    · have hany : (cp :: cps).any (fun cp => decide (0x80 ≤ cp)) = true := by
        simp [List.any_cons]
        left
        omega
      rw [hany]
      exact Accepted.seq _ _ _
        (wellFormed_utf8Encode cp (by omega) (hle cp (by simp))) ih1

/-! ## The claims on `isUtf8` -/

/-- C1, as amended: for every null-terminated buffer, `isUtf8` returns true if and
only if (a) the bytes before the terminator contain at least one well-formed
multi-byte sequence and (b) every byte before the terminator is a permitted
single-byte character, part of a well-formed multi-byte sequence, or part of a
truncated sequence (a lead byte followed by fewer `10xxxxxx` bytes than it
declares) that runs up to the terminator; in every other case it returns
false. -/
theorem isUtf8_true_iff (buf : List Byte) (h0 : (0 : Byte) ∈ buf) :
    (isUtf8 buf = some true ↔
      ContainsSeq (content buf) ∧ EveryByteCoveredOrTail (content buf)) ∧
    (isUtf8 buf = some false ↔
      ¬ (ContainsSeq (content buf) ∧ EveryByteCoveredOrTail (content buf))) := by
  have key : isUtf8 buf = some true ↔
      ContainsSeq (content buf) ∧ EveryByteCoveredOrTail (content buf) := by
    rw [isUtf8_tokenised_iff buf h0]
    constructor
    · intro h
      exact ⟨containsSeq_of_tokenised _ h, covered_of_tokenised _ true h⟩
    · rintro ⟨hc, hcov⟩
      obtain ⟨b, hb⟩ := tokenised_of_covered _ (content buf) (le_refl _) hcov
      have := tokenised_flag _ b hb hc
      rw [this] at hb
      exact hb
  refine ⟨key, ?_⟩
  obtain ⟨b, hb⟩ := isUtf8_isSome buf h0
  rw [← key, hb]
  cases b <;> simp

theorem isUtf8_true_iff_witness :
    (0 : Byte) ∈ ([0x41, 0xC3, 0xA9, 0xE2, 0x82, 0] : List Byte) ∧
      (isUtf8 [0x41, 0xC3, 0xA9, 0xE2, 0x82, 0] = some true ↔
        ContainsSeq (content [0x41, 0xC3, 0xA9, 0xE2, 0x82, 0]) ∧
          EveryByteCoveredOrTail (content [0x41, 0xC3, 0xA9, 0xE2, 0x82, 0])) ∧
      isUtf8 [0x41, 0xC3, 0xA9, 0xE2, 0x82, 0] = some true :=
  ⟨by decide, (isUtf8_true_iff [0x41, 0xC3, 0xA9, 0xE2, 0x82, 0] (by decide)).1, by decide⟩

/-- C1 as stated fails on a buffer that ends in a truncated sequence: in
`C3 A9 C3 00` the last `C3` is neither a permitted single-byte character nor part
of a well-formed multi-byte sequence, and `isUtf8` returns true. -/
theorem isUtf8_true_iff_counterexample :
    (0 : Byte) ∈ ([0xC3, 0xA9, 0xC3, 0] : List Byte) ∧
      isUtf8 [0xC3, 0xA9, 0xC3, 0] = some true ∧
      ¬ (ContainsSeq (content [0xC3, 0xA9, 0xC3, 0]) ∧
        EveryByteCovered (content [0xC3, 0xA9, 0xC3, 0])) := by
  refine ⟨by decide, by decide, ?_⟩
  rintro ⟨_, hcov⟩
  have hcontent : content [0xC3, 0xA9, 0xC3, 0] = [0xC3, 0xA9, 0xC3] := by decide
  rw [hcontent] at hcov
  rcases hcov [0xC3, 0xA9] 0xC3 [] rfl with hp | ⟨p1, u1, u2, p2, _, h2, hw⟩
  · exact absurd hp (by decide)
  · have hu2 : u2 = [] := by
      have := congrArg List.length h2
      simp at this
      exact List.length_eq_zero.1 (by omega)
    subst hu2
    exact absurd (wellFormed_last u1 0xC3 hw) (by decide)

/-- C2: for every null-terminated buffer whose bytes before the terminator are all
7-bit (at most 0x7F), the empty string included, `isUtf8` returns false. -/
theorem isUtf8_false_of_seven_bit (buf : List Byte) (h0 : (0 : Byte) ∈ buf)
    (h7 : ∀ b ∈ content buf, b.val ≤ 0x7F) : isUtf8 buf = some false := by
  obtain ⟨rest, hrest⟩ := buffer_split buf h0
  rw [isUtf8_eq_scan, hrest]
  exact scan_ascii_false rest (content buf) (content_ne_zero buf) h7

theorem isUtf8_false_of_seven_bit_witness :
    (0 : Byte) ∈ ([0x48, 0x69, 0x21, 0] : List Byte) ∧
      (∀ b ∈ content [0x48, 0x69, 0x21, 0], b.val ≤ 0x7F) ∧
      isUtf8 [0x48, 0x69, 0x21, 0] = some false ∧ isUtf8 [0] = some false :=
  ⟨by decide, by decide,
    isUtf8_false_of_seven_bit [0x48, 0x69, 0x21, 0] (by decide) (by decide),
    isUtf8_false_of_seven_bit [0] (by decide) (by decide)⟩

/-- C3, as amended: for every null-terminated buffer whose bytes before the
terminator are the well-formed UTF-8 encoding of a text of code points, with at
least one 2-, 3- or 4-byte sequence (a code point from U+0080 on) and with every
single-byte character in the permitted set (0x07-0x0A, 0x0C, 0x0D, 0x1B,
0x20-0x7E), `isUtf8` returns true. -/
theorem isUtf8_true_of_utf8 (buf : List Byte) (cps : List Nat) (h0 : (0 : Byte) ∈ buf)
    (henc : content buf = utf8EncodeAll cps) (hcp : ∀ cp ∈ cps, IsScalarValue cp)
    (hmulti : ∃ cp ∈ cps, 0x80 ≤ cp)
    (hascii : ∀ b ∈ content buf, b.val < 0x80 → permitted b) :
    isUtf8 buf = some true := by
  obtain ⟨rest, hrest⟩ := buffer_split buf h0
  have hle : ∀ cp ∈ cps, cp ≤ 0x10FFFF := by
    intro cp hmem
    have := hcp cp hmem
    unfold IsScalarValue at this
    omega
  rw [henc] at hascii
  have hacc := accepted_utf8EncodeAll cps hle hascii
  have hany : cps.any (fun cp => decide (0x80 ≤ cp)) = true := by
    obtain ⟨cp, hmem, hge⟩ := hmulti
    exact List.any_eq_true.2 ⟨cp, hmem, by simpa using hge⟩
  rw [hany, ← henc] at hacc
  rw [isUtf8_eq_scan, hrest, scan_accepted _ true hacc]
  exact scan_terminator 0 _ rest

theorem isUtf8_true_of_utf8_witness :
    (0 : Byte) ∈ ([0x41, 0xC3, 0xA9, 0xE2, 0x82, 0xAC, 0xF0, 0x9F, 0x98, 0x80, 0x0A, 0] :
        List Byte) ∧
      content [0x41, 0xC3, 0xA9, 0xE2, 0x82, 0xAC, 0xF0, 0x9F, 0x98, 0x80, 0x0A, 0] =
        utf8EncodeAll [0x41, 0xE9, 0x20AC, 0x1F600, 0x0A] ∧
      (∀ cp ∈ [0x41, 0xE9, 0x20AC, 0x1F600, 0x0A], IsScalarValue cp) ∧
      (∃ cp ∈ [0x41, 0xE9, 0x20AC, 0x1F600, 0x0A], 0x80 ≤ cp) ∧
      isUtf8 [0x41, 0xC3, 0xA9, 0xE2, 0x82, 0xAC, 0xF0, 0x9F, 0x98, 0x80, 0x0A, 0] =
        some true :=
  ⟨by decide, by decide, by decide, by decide,
    isUtf8_true_of_utf8 [0x41, 0xC3, 0xA9, 0xE2, 0x82, 0xAC, 0xF0, 0x9F, 0x98, 0x80, 0x0A, 0]
      [0x41, 0xE9, 0x20AC, 0x1F600, 0x0A] (by decide) (by decide) (by decide) (by decide)
      (by decide)⟩

/-- C3 as stated fails on well-formed UTF-8 that holds a control character
outside the permitted set: `C3 A9 01 00` encodes U+00E9 U+0001 and `isUtf8`
returns false. -/
theorem isUtf8_true_of_utf8_counterexample :
    (0 : Byte) ∈ ([0xC3, 0xA9, 0x01, 0] : List Byte) ∧
      content [0xC3, 0xA9, 0x01, 0] = utf8EncodeAll [0xE9, 0x01] ∧
      (∀ cp ∈ [0xE9, 0x01], IsScalarValue cp) ∧
      (∃ cp ∈ [0xE9, 0x01], 0x80 ≤ cp) ∧
      isUtf8 [0xC3, 0xA9, 0x01, 0] = some false := by
  refine ⟨by decide, by decide, by decide, by decide, by decide⟩

/-- C4: when the scan reaches a lead byte whose declared continuation bytes are cut
off by the terminator, after a prefix of permitted ASCII bytes and complete
multi-byte sequences, and the continuation bytes that are present all match
`10xxxxxx`, `isUtf8` returns whether a complete multi-byte sequence was
recognised in the prefix: true if there was one, false if not. -/
theorem isUtf8_truncated_tail (pre : List Byte) (gotone : Bool) (c : Byte) (k : Nat)
    (conts rest : List Byte) (hpre : Accepted pre gotone) (hc : declared c = some k)
    (hlen : conts.length < k) (hconts : ∀ b ∈ conts, isContinuation b) :
    isUtf8 (pre ++ c :: conts ++ 0 :: rest) = some gotone := by
  rw [isUtf8_eq_scan, List.append_assoc, scan_accepted pre gotone hpre]
  have ht : TruncatedSeq (c :: conts) := ⟨c, conts, k, rfl, hc, hlen, hconts⟩
  rw [scan_truncated (c :: conts) _ rest ht]
  simp

theorem isUtf8_truncated_tail_witness :
    Accepted [0x41, 0xC3, 0xA9] true ∧ declared 0xE2 = some 2 ∧
      ([0x82] : List Byte).length < 2 ∧ (∀ b ∈ ([0x82] : List Byte), isContinuation b) ∧
      isUtf8 ([0x41, 0xC3, 0xA9] ++ 0xE2 :: [0x82] ++ 0 :: [0x55]) = some true ∧
      Accepted [0x41] false ∧
      isUtf8 ([0x41] ++ 0xE2 :: [0x82] ++ 0 :: []) = some false :=
  have h1 : Accepted [0x41, 0xC3, 0xA9] true :=
    Accepted.single 0x41 _ true (by decide)
      (Accepted.seq [0xC3, 0xA9] [] false ⟨0xC3, [0xA9], rfl, by decide, by decide⟩
        Accepted.nil)
  have h2 : Accepted [0x41] false := Accepted.single 0x41 _ false (by decide) Accepted.nil
  ⟨h1, by decide, by decide, by decide,
    isUtf8_truncated_tail [0x41, 0xC3, 0xA9] true 0xE2 2 [0x82] [0x55] h1
      (by decide) (by decide) (by decide),
    h2,
    isUtf8_truncated_tail [0x41] false 0xE2 2 [0x82] [] h2
      (by decide) (by decide) (by decide)⟩

/-- C5: a `10xxxxxx` byte where a lead byte is expected (at the start, or after a
prefix of permitted ASCII bytes and complete multi-byte sequences) makes `isUtf8`
return false, whatever follows it. -/
theorem isUtf8_false_of_continuation_first (pre : List Byte) (gotone : Bool) (x : Byte)
    (tl : List Byte) (hpre : Accepted pre gotone) (hx : isContinuation x) :
    isUtf8 (pre ++ x :: tl) = some false := by
  rw [isUtf8_eq_scan, scan_accepted pre gotone hpre]
  exact scan_continuation_first x _ tl hx

theorem isUtf8_false_of_continuation_first_witness :
    Accepted [0xC3, 0xA9] true ∧ isContinuation 0x80 ∧
      isUtf8 ([0xC3, 0xA9] ++ 0x80 :: [0x41, 0]) = some false ∧
      Accepted [] false ∧ isContinuation 0xBF ∧
      isUtf8 ([] ++ 0xBF :: [0]) = some false :=
  have h1 : Accepted [0xC3, 0xA9] true :=
    Accepted.seq [0xC3, 0xA9] [] false ⟨0xC3, [0xA9], rfl, by decide, by decide⟩ Accepted.nil
  ⟨h1, by decide,
    isUtf8_false_of_continuation_first [0xC3, 0xA9] true 0x80 [0x41, 0] h1 (by decide),
    Accepted.nil, by decide,
    isUtf8_false_of_continuation_first [] false 0xBF [0] Accepted.nil (by decide)⟩

/-- C6: a null-terminated buffer that holds, anywhere before its terminator, a 7-bit
byte outside the allowed set (0x07-0x0A, 0x0C, 0x0D, 0x1B, 0x20-0x7E) makes
`isUtf8` return false, whatever the other bytes are. -/
theorem isUtf8_false_of_rejected_ascii (buf : List Byte) (x : Byte)
    (h0 : (0 : Byte) ∈ buf) (hmem : x ∈ content buf) (h7 : x.val ≤ 0x7F)
    (hx : ¬ permitted x) : isUtf8 buf = some false := by
  obtain ⟨rest, hrest⟩ := buffer_split buf h0
  rw [isUtf8_eq_scan, hrest]
  exact scan_rejected_ascii_mem x (content buf) _ 0 false hmem (content_ne_zero buf) h7 hx

theorem isUtf8_false_of_rejected_ascii_witness :
    (0 : Byte) ∈ ([0xC3, 0xA9, 0x7F, 0] : List Byte) ∧
      (0x7F : Byte) ∈ content [0xC3, 0xA9, 0x7F, 0] ∧ ¬ permitted 0x7F ∧
      isUtf8 [0xC3, 0xA9, 0x7F, 0] = some false ∧
      (0x0B : Byte) ∈ content [0xE2, 0x0B, 0xAC, 0] ∧ ¬ permitted 0x0B ∧
      isUtf8 [0xE2, 0x0B, 0xAC, 0] = some false ∧
      (0x01 : Byte) ∈ content [0x41, 0xC3, 0x01, 0] ∧ ¬ permitted 0x01 ∧
      isUtf8 [0x41, 0xC3, 0x01, 0] = some false :=
  ⟨by decide, by decide, by decide,
    isUtf8_false_of_rejected_ascii [0xC3, 0xA9, 0x7F, 0] 0x7F
      (by decide) (by decide) (by decide) (by decide),
    by decide, by decide,
    isUtf8_false_of_rejected_ascii [0xE2, 0x0B, 0xAC, 0] 0x0B
      (by decide) (by decide) (by decide) (by decide),
    by decide, by decide,
    isUtf8_false_of_rejected_ascii [0x41, 0xC3, 0x01, 0] 0x01
      (by decide) (by decide) (by decide) (by decide)⟩

theorem following_by_pattern : ∀ c : Byte,
    (0xC0 ≤ c.val ∧ c.val ≤ 0xDF → following c = some 1) ∧
    (0xE0 ≤ c.val ∧ c.val ≤ 0xEF → following c = some 2) ∧
    (0xF0 ≤ c.val ∧ c.val ≤ 0xF7 → following c = some 3) ∧
    (0xF8 ≤ c.val ∧ c.val ≤ 0xFB → following c = some 4) ∧
    (0xFC ≤ c.val ∧ c.val ≤ 0xFD → following c = some 5) ∧
    (0xFE ≤ c.val → following c = none) := by decide

/-- C7: a lead byte declares 1, 2, 3, 4 or 5 continuation bytes for the patterns
`110xxxxx` (0xC0-0xDF), `1110xxxx` (0xE0-0xEF), `11110xxx` (0xF0-0xF7),
`111110xx` (0xF8-0xFB) and `1111110x` (0xFC-0xFD), and none for 0xFE and 0xFF;
the buffer made of such a lead byte and exactly that many `10xxxxxx` bytes is
classified true; the buffer in which one of those positions holds a non-zero
byte that is not `10xxxxxx` is classified false; and every null-terminated
buffer with a byte 0xFE or 0xFF before its terminator is classified false. -/
theorem isUtf8_lead_bytes :
    (∀ c : Byte,
      (0xC0 ≤ c.val ∧ c.val ≤ 0xDF → following c = some 1) ∧
      (0xE0 ≤ c.val ∧ c.val ≤ 0xEF → following c = some 2) ∧
      (0xF0 ≤ c.val ∧ c.val ≤ 0xF7 → following c = some 3) ∧
      (0xF8 ≤ c.val ∧ c.val ≤ 0xFB → following c = some 4) ∧
      (0xFC ≤ c.val ∧ c.val ≤ 0xFD → following c = some 5) ∧
      (0xFE ≤ c.val → following c = none)) ∧
    (∀ (c : Byte) (k : Nat) (conts rest : List Byte),
      0xC0 ≤ c.val → following c = some k → conts.length = k →
      (∀ b ∈ conts, isContinuation b) →
      isUtf8 (c :: conts ++ 0 :: rest) = some true) ∧
    (∀ (c : Byte) (k : Nat) (before : List Byte) (x : Byte) (after rest : List Byte),
      0xC0 ≤ c.val → following c = some k → before.length + 1 + after.length = k →
      (∀ b ∈ before, isContinuation b) → x ≠ 0 → ¬ isContinuation x →
      isUtf8 (c :: before ++ x :: after ++ 0 :: rest) = some false) ∧
    (∀ (buf : List Byte) (x : Byte),
      (0 : Byte) ∈ buf → x ∈ content buf → 0xFE ≤ x.val → isUtf8 buf = some false) := by
  refine ⟨following_by_pattern, ?_, ?_, ?_⟩
  · intro c k conts rest hc hf hlen hall
    rw [following_eq_declared c hc] at hf
    have hw : WellFormedSeq (c :: conts) := ⟨c, conts, rfl, by rw [hf, hlen], hall⟩
    rw [isUtf8_eq_scan]
    have := scan_wellFormed (c :: conts) false (0 :: rest) hw
    rw [List.cons_append] at this ⊢
    rw [this]
    exact scan_terminator 0 true rest
  · intro c k before x after rest hc hf hlen hb hx0 hx
    rw [following_eq_declared c hc] at hf
    rw [isUtf8_eq_scan, List.cons_append, List.cons_append, scan_lead c k false _ hf,
      List.append_assoc]
    exact scan_conts_rejected false x _ hx0 hx before k hb (by omega)
  · intro buf x h0 hmem hx
    obtain ⟨rest, hrest⟩ := buffer_split buf h0
    rw [isUtf8_eq_scan, hrest]
    exact scan_rejected_FE_mem x (content buf) _ 0 false hmem (content_ne_zero buf) hx

theorem isUtf8_lead_bytes_witness :
    following 0xC3 = some 1 ∧ following 0xE2 = some 2 ∧ following 0xF0 = some 3 ∧
      following 0xF9 = some 4 ∧ following 0xFD = some 5 ∧ following 0xFF = none ∧
      isUtf8 (0xF9 :: [0x80, 0x81, 0x82, 0xBF] ++ 0 :: []) = some true ∧
      isUtf8 (0xE2 :: [0x82] ++ 0x41 :: [] ++ 0 :: []) = some false ∧
      isUtf8 [0xC3, 0xA9, 0xFE, 0] = some false :=
  ⟨(isUtf8_lead_bytes.1 0xC3).1 (by decide),
    (isUtf8_lead_bytes.1 0xE2).2.1 (by decide),
    (isUtf8_lead_bytes.1 0xF0).2.2.1 (by decide),
    (isUtf8_lead_bytes.1 0xF9).2.2.2.1 (by decide),
    (isUtf8_lead_bytes.1 0xFD).2.2.2.2.1 (by decide),
    (isUtf8_lead_bytes.1 0xFF).2.2.2.2.2 (by decide),
    isUtf8_lead_bytes.2.1 0xF9 4 [0x80, 0x81, 0x82, 0xBF] [] (by decide) (by decide)
      (by decide) (by decide),
    isUtf8_lead_bytes.2.2.1 0xE2 2 [0x82] 0x41 [] [] (by decide) (by decide) (by decide)
      (by decide) (by decide) (by decide),
    isUtf8_lead_bytes.2.2.2 [0xC3, 0xA9, 0xFE, 0] 0xFE (by decide) (by decide) (by decide)⟩

/-! ## The C library and the upper-casing methods -/

theorem content_eq_self (s : List Byte) (hs : ∀ b ∈ s, b ≠ 0) : content s = s := by
  induction s with
  | nil => rfl
  | cons c s ih =>
    have hc : c.val ≠ 0 := fun h => hs c (by simp) ((val_eq_zero_iff c).1 h)
    unfold content
    simp only [hc, if_false]
    rw [ih (fun b hb => hs b (by simp [hb]))]

theorem strlen_eq (text : List Byte) (h0 : (0 : Byte) ∈ text) :
    strlen text = some (content text).length := by
  induction text with
  | nil => simp at h0
  | cons c tl ih =>
    unfold strlen content
    by_cases hc : c.val = 0
    · simp [hc]
    · have hc0 : c ≠ 0 := fun h => hc ((val_eq_zero_iff c).2 h)
      have hmem : (0 : Byte) ∈ tl := by
        rcases List.mem_cons.1 h0 with h1 | h1
        · exact absurd h1.symm hc0
        · exact h1
      simp [hc, ih hmem]

theorem content_length_lt (text : List Byte) (h0 : (0 : Byte) ∈ text) :
    (content text).length < text.length := by
  obtain ⟨rest, hrest⟩ := buffer_split text h0
  have := congrArg List.length hrest
  simp at this
  omega

theorem cstring_eq (text : List Byte) (h0 : (0 : Byte) ∈ text) :
    cstring text = some (content text) := by
  simp [cstring, strlen_eq text h0]

theorem strncpy_eq :
    ∀ (n : Nat) (dest src : List Byte), n ≤ dest.length →
      strncpy dest src n =
        some ((content src).take n ++ List.replicate (n - (content src).length) 0 ++
          dest.drop n) := by
  intro n
  induction n with
  | zero =>
    intro dest src _
    simp [strncpy]
  | succ n ih =>
    intro dest src hl
    cases dest with
    | nil => simp at hl
    | cons d dest =>
      have hl1 : n ≤ dest.length := by simp at hl; omega
      cases src with
      | nil =>
        simp only [strncpy, ih dest [] hl1, content]
        simp [List.replicate_succ]
      | cons c src =>
        by_cases hc : c.val = 0
        · simp only [strncpy, hc, if_true, ih dest [] hl1, content]
          simp [List.replicate_succ]
        · simp only [strncpy, hc, if_false, ih dest src hl1, content]
          simp

theorem writeByte_strncpy (dest src : List Byte) (n : Nat) (h : n < dest.length) :
    (orFault (strncpy dest src n) >>= fun t => writeByte t n 0) =
      Except.ok (copied dest (content src) n) := by
  rw [strncpy_eq n dest src (by omega)]
  have hlen : ((content src).take n ++ List.replicate (n - (content src).length) 0).length
      = n := by
    simp
    omega
  simp only [orFault, bind, Except.bind, writeByte]
  have hlt : n < ((content src).take n ++ List.replicate (n - (content src).length) 0 ++
      dest.drop n).length := by
    rw [List.length_append, hlen]
    simp
    omega
  rw [if_pos hlt]
  congr 1
  unfold copied
  rw [List.set_append_right _ _ (by omega), hlen, Nat.sub_self]
  rw [List.drop_eq_getElem_cons h, List.set_cons_zero]

theorem content_copied (dest s : List Byte) (n : Nat) (hs : ∀ b ∈ s, b ≠ 0) :
    content (copied dest s n) = s.take n := by
  unfold copied
  have hz : ∃ rest, List.replicate (n - s.length) (0 : Byte) ++ 0 :: dest.drop (n + 1) =
      0 :: rest := by
    cases hk : n - s.length with
    | zero => exact ⟨_, rfl⟩
    | succ k => exact ⟨List.replicate k 0 ++ 0 :: dest.drop (n + 1), by
        simp [List.replicate_succ]⟩
  obtain ⟨rest, hrest⟩ := hz
  rw [List.append_assoc, hrest]
  exact content_append _ rest (fun b hb => hs b (List.mem_of_mem_take hb))

theorem copied_getElem (dest s : List Byte) (n : Nat) :
    (copied dest s n)[n]? = some 0 := by
  unfold copied
  have hlen : (s.take n ++ List.replicate (n - s.length) (0 : Byte)).length = n := by
    simp
    omega
  rw [List.getElem?_append_right (by omega), hlen]
  simp

theorem copied_frame (dest s : List Byte) (n j : Nat) (hj : n < j) :
    (copied dest s n)[j]? = dest[j]? := by
  unfold copied
  have hlen : (s.take n ++ List.replicate (n - s.length) (0 : Byte)).length = n := by
    simp
    omega
  rw [List.getElem?_append_right (by omega), hlen]
  obtain ⟨k, rfl⟩ : ∃ k, j = n + 1 + k := ⟨j - (n + 1), by omega⟩
  have : n + 1 + k - n = k + 1 := by omega
  rw [this, List.getElem?_cons_succ, List.getElem?_drop]

theorem copied_length (dest s : List Byte) (n : Nat) (h : n < dest.length) :
    (copied dest s n).length = dest.length := by
  unfold copied
  simp
  omega


theorem orFault_some {α : Type} (a : α) : orFault (some a) = Except.ok a := rfl

namespace BtStringMgr

theorem upperUTF8_explicit (utf8Upper latin1Upper : List Byte → List Byte)
    (text : List Byte) (c : Nat) (h0 : (0 : Byte) ∈ text) (hc : 2 ≤ c)
    (hcap : c ≤ text.length) :
    upperUTF8 utf8Upper latin1Upper text c =
      Except.ok (copied text (upperUTF8Source utf8Upper latin1Upper text) (c - 1)) := by
  obtain ⟨b, hb⟩ := isUtf8_isSome text h0
  have hpos : c > 0 := by omega
  have hgt : c > 1 := by omega
  have hw := writeByte_strncpy text
    (if b = true then utf8Upper (content text) else latin1Upper (content text)) (c - 1)
    (by omega)
  unfold upperUTF8
  simp only [hpos, if_true, pure, Except.pure, bind, Except.bind, hgt, hb, orFault_some,
    cstring_eq text h0]
  simp only [bind, Except.bind] at hw
  rw [hw]
  unfold upperUTF8Source
  rw [hb]
  cases b <;> simp

theorem upperLatin1_explicit (latin1Upper : List Byte → List Byte)
    (text : List Byte) (c : Nat) (h0 : (0 : Byte) ∈ text) (hc : 2 ≤ c)
    (hcap : c ≤ text.length) :
    upperLatin1 latin1Upper text c =
      Except.ok (copied text (upperLatin1Source latin1Upper text) (c - 1)) := by
  have hpos : c > 0 := by omega
  have hgt : c > 1 := by omega
  have hw := writeByte_strncpy text (latin1Upper (content text)) (c - 1) (by omega)
  unfold upperLatin1
  simp only [hpos, if_true, pure, Except.pure, bind, Except.bind, hgt, orFault_some,
    cstring_eq text h0]
  simp only [bind, Except.bind] at hw
  rw [hw]
  rfl

theorem upperUTF8_unspecified (utf8Upper latin1Upper : List Byte → List Byte)
    (text : List Byte) (h0 : (0 : Byte) ∈ text) :
    upperUTF8 utf8Upper latin1Upper text 0 =
      upperUTF8 utf8Upper latin1Upper text ((content text).length + 1) := by
  unfold upperUTF8
  simp [strlen_eq text h0, orFault_some, pure, Except.pure, bind, Except.bind, Functor.map,
    Except.map]

end BtStringMgr

theorem take_min_length (s : List Byte) (n : Nat) : s.take (min n s.length) = s.take n := by
  by_cases h : n ≤ s.length
  · rw [Nat.min_eq_left h]
  · rw [Nat.min_eq_right (by omega), List.take_length, List.take_of_length_le (by omega)]

theorem orFault_ne_assertion {α : Type} (x : Option α) :
    orFault x ≠ Except.error Fault.assertionFailed := by
  cases x <;> simp [orFault]

theorem writeByte_ne_assertion (text : List Byte) (i : Nat) (v : Byte) :
    writeByte text i v ≠ Except.error Fault.assertionFailed := by
  unfold writeByte
  split_ifs <;> simp

theorem upperUTF8Source_ne_zero (utf8Upper latin1Upper : List Byte → List Byte)
    (text : List Byte) : ∀ b ∈ upperUTF8Source utf8Upper latin1Upper text, b ≠ 0 :=
  content_ne_zero _

theorem upperLatin1Source_ne_zero (latin1Upper : List Byte → List Byte)
    (text : List Byte) : ∀ b ∈ upperLatin1Source latin1Upper text, b ≠ 0 :=
  content_ne_zero _

namespace BtStringMgr

/-- The branches of `upperUTF8` after `max` is known. -/
theorem upperUTF8_ne_assertion (utf8Upper latin1Upper : List Byte → List Byte)
    (text : List Byte) (maxlen : Nat) :
    upperUTF8 utf8Upper latin1Upper text maxlen ≠ Except.error Fault.assertionFailed := by
  have body : ∀ max : Nat, 0 < max →
      (if max > 1 then
        (do
          let utf8 ← orFault (isUtf8 text)
          let s ← orFault (cstring text)
          let t ← orFault (strncpy text (if utf8 then utf8Upper s else latin1Upper s)
            (max - 1))
          writeByte t (max - 1) 0 : Except Fault (List Byte))
      else if max = 1 then writeByte text 0 0
      else (do
        BT_ASSERT (max == 0)
        pure text)) ≠ Except.error Fault.assertionFailed := by
    intro max hmax
    by_cases h1 : max > 1
    · simp only [h1, if_true]
      cases hu : isUtf8 text with
      | none => simp [orFault, bind, Except.bind]
      | some b =>
        cases hs : cstring text with
        | none => simp [orFault, bind, Except.bind]
        | some s =>
          cases ht : strncpy text (if b = true then utf8Upper s else latin1Upper s) (max - 1) with
          | none => simp [orFault, bind, Except.bind, ht]
          | some t =>
            simp only [orFault, bind, Except.bind, ht]
            exact writeByte_ne_assertion t (max - 1) 0
    · have h2 : max = 1 := by omega
      simp only [h1, if_false, h2, if_true]
      exact writeByte_ne_assertion text 0 0
  unfold upperUTF8
  by_cases hm : maxlen > 0
  · simp only [hm, if_true, pure, Except.pure, bind, Except.bind]
    exact body maxlen hm
  · simp only [hm, if_false]
    cases hl : strlen text with
    | none => simp [orFault, bind, Except.bind, Functor.map, Except.map]
    | some n =>
      simp only [orFault, bind, Except.bind, Functor.map, Except.map]
      exact body (n + 1) (by omega)

theorem upperUTF8_unspecified_eq (utf8Upper latin1Upper : List Byte → List Byte)
    (text : List Byte) (h0 : (0 : Byte) ∈ text) :
    upperUTF8 utf8Upper latin1Upper text 0 =
      Except.ok (copied text (upperUTF8Source utf8Upper latin1Upper text)
        (content text).length) := by
  rw [upperUTF8_unspecified utf8Upper latin1Upper text h0]
  by_cases hn : (content text).length = 0
  · obtain ⟨rest, hrest⟩ := buffer_split text h0
    have hc : content text = [] := List.length_eq_zero.1 hn
    rw [hc, List.nil_append] at hrest
    rw [hn]
    unfold upperUTF8
    simp [pure, Except.pure, bind, Except.bind, writeByte, copied]
    rw [hrest]
    simp
  · have := upperUTF8_explicit utf8Upper latin1Upper text ((content text).length + 1) h0
      (by omega) (by have := content_length_lt text h0; omega)
    simpa using this

end BtStringMgr

/-! ## The claims on `upperUTF8` and `upperLatin1` -/

/-- C8: for every null-terminated buffer and every explicit capacity `c ≥ 2` (within
the buffer), after `upperUTF8(text, c)` and after `upperLatin1(text, c)` the
string in the buffer is the first `min(c-1, |U|)` bytes of `U`, the upper-cased
re-encoded text of the original content; the byte at index `c-1` is zero and the
string has at most `c-1` bytes. So `upperLatin1("abc", 4)` gives `"ABC"` with the
terminator at index 3 and `upperLatin1("ABCDE", 3)` gives `"AB"`, for a conversion
that upper-cases these texts to `"ABC"` and `"ABCDE"`. -/
theorem upper_explicit_capacity (utf8Upper latin1Upper : List Byte → List Byte)
    (text : List Byte) (c : Nat) (h0 : (0 : Byte) ∈ text) (hc : 2 ≤ c)
    (hcap : c ≤ text.length) :
    (∃ out, BtStringMgr.upperUTF8 utf8Upper latin1Upper text c = Except.ok out ∧
      content out = (upperUTF8Source utf8Upper latin1Upper text).take
        (min (c - 1) (upperUTF8Source utf8Upper latin1Upper text).length) ∧
      out[c - 1]? = some 0 ∧ (content out).length ≤ c - 1) ∧
    (∃ out, BtStringMgr.upperLatin1 latin1Upper text c = Except.ok out ∧
      content out = (upperLatin1Source latin1Upper text).take
        (min (c - 1) (upperLatin1Source latin1Upper text).length) ∧
      out[c - 1]? = some 0 ∧ (content out).length ≤ c - 1) ∧
    (latin1Upper [0x61, 0x62, 0x63] = [0x41, 0x42, 0x43] →
      BtStringMgr.upperLatin1 latin1Upper [0x61, 0x62, 0x63, 0] 4 =
        Except.ok [0x41, 0x42, 0x43, 0]) ∧
    (latin1Upper [0x41, 0x42, 0x43, 0x44, 0x45] = [0x41, 0x42, 0x43, 0x44, 0x45] →
      BtStringMgr.upperLatin1 latin1Upper [0x41, 0x42, 0x43, 0x44, 0x45, 0] 3 =
        Except.ok [0x41, 0x42, 0, 0x44, 0x45, 0]) := by
  refine ⟨⟨_, BtStringMgr.upperUTF8_explicit utf8Upper latin1Upper text c h0 hc hcap, ?_,
      copied_getElem _ _ _, ?_⟩,
    ⟨_, BtStringMgr.upperLatin1_explicit latin1Upper text c h0 hc hcap, ?_,
      copied_getElem _ _ _, ?_⟩, ?_, ?_⟩
  · rw [take_min_length]
    exact content_copied _ _ _ (upperUTF8Source_ne_zero _ _ _)
  · rw [content_copied _ _ _ (upperUTF8Source_ne_zero _ _ _), List.length_take]
    omega
  · rw [take_min_length]
    exact content_copied _ _ _ (upperLatin1Source_ne_zero _ _)
  · rw [content_copied _ _ _ (upperLatin1Source_ne_zero _ _), List.length_take]
    omega
  · intro h
    rw [BtStringMgr.upperLatin1_explicit latin1Upper _ 4 (by decide) (by decide) (by decide)]
    have hcont : content ([0x61, 0x62, 0x63, 0] : List Byte) = [0x61, 0x62, 0x63] := by decide
    unfold upperLatin1Source
    rw [hcont, h]
    decide
  · intro h
    rw [BtStringMgr.upperLatin1_explicit latin1Upper _ 3 (by decide) (by decide) (by decide)]
    have hcont : content ([0x41, 0x42, 0x43, 0x44, 0x45, 0] : List Byte) =
        [0x41, 0x42, 0x43, 0x44, 0x45] := by decide
    unfold upperLatin1Source
    rw [hcont, h]
    decide

theorem upper_explicit_capacity_witness :
    (0 : Byte) ∈ ([0x61, 0x62, 0x63, 0] : List Byte) ∧ 2 ≤ 4 ∧
      4 ≤ ([0x61, 0x62, 0x63, 0] : List Byte).length ∧
      BtStringMgr.upperLatin1 asciiUpper [0x61, 0x62, 0x63, 0] 4 =
        Except.ok [0x41, 0x42, 0x43, 0] ∧
      BtStringMgr.upperLatin1 asciiUpper [0x41, 0x42, 0x43, 0x44, 0x45, 0] 3 =
        Except.ok [0x41, 0x42, 0, 0x44, 0x45, 0] ∧
      content ([0x41, 0x42, 0, 0x44, 0x45, 0] : List Byte) = [0x41, 0x42] :=
  ⟨by decide, by decide, by decide,
    (upper_explicit_capacity asciiUpper asciiUpper [0x61, 0x62, 0x63, 0] 4
      (by decide) (by decide) (by decide)).2.2.1 (by decide),
    (upper_explicit_capacity asciiUpper asciiUpper [0x61, 0x62, 0x63, 0] 4
      (by decide) (by decide) (by decide)).2.2.2 (by decide),
    by decide⟩

/-- C9 as stated fails: with the capacity given as 0 `upperUTF8` does not fail an
assertion; it upper-cases `"ab"` in place, as for an unspecified capacity. -/
theorem upperUTF8_zero_capacity_counterexample :
    BtStringMgr.upperUTF8 asciiUpper asciiUpper [0x61, 0x62, 0] 0 =
      Except.ok [0x41, 0x42, 0] := by decide

/-- C9, as amended: a capacity of 0 is the value of `maxlen` that stands for "not
specified", so calling `upperUTF8` with capacity 0 fails no assertion (no call of
`upperUTF8` does: the capacity it computes is at least 1 and the assertion sits
in the branch for capacity 0); on a null-terminated buffer the call returns and
has upper-cased the buffer with capacity `strlen(text) + 1`. -/
theorem upperUTF8_zero_capacity (utf8Upper latin1Upper : List Byte → List Byte)
    (text : List Byte) (h0 : (0 : Byte) ∈ text) :
    (∀ (t : List Byte) (maxlen : Nat),
      BtStringMgr.upperUTF8 utf8Upper latin1Upper t maxlen ≠
        Except.error Fault.assertionFailed) ∧
    BtStringMgr.upperUTF8 utf8Upper latin1Upper text 0 =
      BtStringMgr.upperUTF8 utf8Upper latin1Upper text ((content text).length + 1) ∧
    BtStringMgr.upperUTF8 utf8Upper latin1Upper text 0 =
      Except.ok (copied text (upperUTF8Source utf8Upper latin1Upper text)
        (content text).length) :=
  ⟨BtStringMgr.upperUTF8_ne_assertion utf8Upper latin1Upper,
    BtStringMgr.upperUTF8_unspecified utf8Upper latin1Upper text h0,
    BtStringMgr.upperUTF8_unspecified_eq utf8Upper latin1Upper text h0⟩

theorem upperUTF8_zero_capacity_witness :
    (0 : Byte) ∈ ([0x61, 0xC3, 0xA9, 0] : List Byte) ∧
      BtStringMgr.upperUTF8 asciiUpper asciiUpper [0x61, 0xC3, 0xA9, 0] 0 =
        Except.ok (copied [0x61, 0xC3, 0xA9, 0]
          (upperUTF8Source asciiUpper asciiUpper [0x61, 0xC3, 0xA9, 0])
          (content [0x61, 0xC3, 0xA9, 0]).length) ∧
      BtStringMgr.upperUTF8 asciiUpper asciiUpper [0x61, 0xC3, 0xA9, 0] 0 =
        Except.ok [0x41, 0xC3, 0xA9, 0] :=
  ⟨by decide,
    (upperUTF8_zero_capacity asciiUpper asciiUpper [0x61, 0xC3, 0xA9, 0] (by decide)).2.2,
    by decide⟩

/-- C10: when the capacity is not specified (`maxlen = 0`), `upperUTF8` uses the
capacity `strlen(text) + 1`: for a buffer holding a string of length `n` the
result holds the first `min(n, |U|)` bytes of the upper-cased text `U`,
terminated at or before index `n`; the whole of `U` is stored whenever it is no
longer than the original, and no byte at an index above `n` is changed. -/
theorem upperUTF8_unspecified_capacity (utf8Upper latin1Upper : List Byte → List Byte)
    (text : List Byte) (h0 : (0 : Byte) ∈ text) :
    BtStringMgr.upperUTF8 utf8Upper latin1Upper text 0 =
      BtStringMgr.upperUTF8 utf8Upper latin1Upper text ((content text).length + 1) ∧
    ∃ out, BtStringMgr.upperUTF8 utf8Upper latin1Upper text 0 = Except.ok out ∧
      content out = (upperUTF8Source utf8Upper latin1Upper text).take
        (min (content text).length (upperUTF8Source utf8Upper latin1Upper text).length) ∧
      out[(content text).length]? = some 0 ∧
      (content out).length ≤ (content text).length ∧
      ((upperUTF8Source utf8Upper latin1Upper text).length ≤ (content text).length →
        content out = upperUTF8Source utf8Upper latin1Upper text) ∧
      (∀ j, (content text).length < j → out[j]? = text[j]?) := by
  refine ⟨BtStringMgr.upperUTF8_unspecified utf8Upper latin1Upper text h0, _,
    BtStringMgr.upperUTF8_unspecified_eq utf8Upper latin1Upper text h0, ?_,
    copied_getElem _ _ _, ?_, ?_, ?_⟩
  · rw [take_min_length]
    exact content_copied _ _ _ (upperUTF8Source_ne_zero _ _ _)
  · rw [content_copied _ _ _ (upperUTF8Source_ne_zero _ _ _), List.length_take]
    omega
  · intro hle
    rw [content_copied _ _ _ (upperUTF8Source_ne_zero _ _ _)]
    exact List.take_of_length_le hle
  · intro j hj
    exact copied_frame _ _ _ j hj

theorem upperUTF8_unspecified_capacity_witness :
    (0 : Byte) ∈ ([0x61, 0x62, 0, 0x7A] : List Byte) ∧
      BtStringMgr.upperUTF8 asciiUpper asciiUpper [0x61, 0x62, 0, 0x7A] 0 =
        BtStringMgr.upperUTF8 asciiUpper asciiUpper [0x61, 0x62, 0, 0x7A]
          ((content [0x61, 0x62, 0, 0x7A]).length + 1) ∧
      BtStringMgr.upperUTF8 asciiUpper asciiUpper [0x61, 0x62, 0, 0x7A] 0 =
        Except.ok [0x41, 0x42, 0, 0x7A] :=
  ⟨by decide,
    (upperUTF8_unspecified_capacity asciiUpper asciiUpper [0x61, 0x62, 0, 0x7A]
      (by decide)).1,
    by decide⟩

theorem set_zero_getElem (text : List Byte) (v : Byte) (j : Nat) (hj : 1 ≤ j) :
    (text.set 0 v)[j]? = text[j]? := by
  cases text with
  | nil => simp
  | cons a tl =>
    obtain ⟨k, rfl⟩ : ∃ k, j = k + 1 := ⟨j - 1, by omega⟩
    simp

theorem content_set_zero (text : List Byte) (h : text ≠ []) : content (text.set 0 0) = [] := by
  cases text with
  | nil => exact absurd rfl h
  | cons a tl => simp [content]

namespace BtStringMgr

theorem upperUTF8_one (utf8Upper latin1Upper : List Byte → List Byte) (text : List Byte)
    (h : text ≠ []) :
    upperUTF8 utf8Upper latin1Upper text 1 = Except.ok (text.set 0 0) := by
  have hl : 0 < text.length := List.length_pos.2 h
  unfold upperUTF8
  simp [pure, Except.pure, bind, Except.bind, writeByte, hl]

theorem upperLatin1_one (latin1Upper : List Byte → List Byte) (text : List Byte)
    (h : text ≠ []) :
    upperLatin1 latin1Upper text 1 = Except.ok (text.set 0 0) := by
  have hl : 0 < text.length := List.length_pos.2 h
  unfold upperLatin1
  simp [pure, Except.pure, bind, Except.bind, writeByte, hl]

theorem upperLatin1_unspecified (latin1Upper : List Byte → List Byte) (text : List Byte)
    (h0 : (0 : Byte) ∈ text) (hn : 1 ≤ (content text).length) :
    upperLatin1 latin1Upper text 0 = upperLatin1 latin1Upper text (content text).length := by
  have hpos : (content text).length > 0 := by omega
  unfold upperLatin1
  simp [strlen_eq text h0, orFault_some, pure, Except.pure, bind, Except.bind, hpos]

theorem upperLatin1_empty (latin1Upper : List Byte → List Byte) (text : List Byte)
    (h0 : (0 : Byte) ∈ text) (hn : (content text).length = 0) :
    upperLatin1 latin1Upper text 0 = Except.ok text := by
  unfold upperLatin1
  simp [strlen_eq text h0, hn, orFault_some, pure, Except.pure, bind, Except.bind, BT_ASSERT]

end BtStringMgr

/-- C11: when the capacity is not specified (`maxlen = 0`), `upperLatin1` uses the
capacity `strlen(text)`, without the terminator byte. For a buffer holding a
string of length `n ≥ 2` the result holds the first `min(n-1, |U|)` bytes of the
upper-cased text `U`, at most `n-1` bytes, so the last character is dropped when
`U` is as long as the original; a string of length 1 becomes the empty string;
an empty string is left unchanged and no assertion fails; `upperUTF8` on the same
buffer keeps up to `n` bytes. -/
theorem upperLatin1_unspecified_capacity (utf8Upper latin1Upper : List Byte → List Byte)
    (text : List Byte) (h0 : (0 : Byte) ∈ text) :
    (1 ≤ (content text).length →
      BtStringMgr.upperLatin1 latin1Upper text 0 =
        BtStringMgr.upperLatin1 latin1Upper text (content text).length) ∧
    (2 ≤ (content text).length →
      ∃ out, BtStringMgr.upperLatin1 latin1Upper text 0 = Except.ok out ∧
        content out = (upperLatin1Source latin1Upper text).take
          (min ((content text).length - 1) (upperLatin1Source latin1Upper text).length) ∧
        (content out).length ≤ (content text).length - 1 ∧
        ((upperLatin1Source latin1Upper text).length = (content text).length →
          content out = (upperLatin1Source latin1Upper text).dropLast)) ∧
    ((content text).length = 1 →
      ∃ out, BtStringMgr.upperLatin1 latin1Upper text 0 = Except.ok out ∧ content out = []) ∧
    ((content text).length = 0 →
      BtStringMgr.upperLatin1 latin1Upper text 0 = Except.ok text) ∧
    (∃ out, BtStringMgr.upperUTF8 utf8Upper latin1Upper text 0 = Except.ok out ∧
      content out = (upperUTF8Source utf8Upper latin1Upper text).take
        (min (content text).length (upperUTF8Source utf8Upper latin1Upper text).length)) := by
  have hlt := content_length_lt text h0
  refine ⟨BtStringMgr.upperLatin1_unspecified latin1Upper text h0, ?_, ?_,
    BtStringMgr.upperLatin1_empty latin1Upper text h0, ?_⟩
  · intro hn
    refine ⟨copied text (upperLatin1Source latin1Upper text) ((content text).length - 1),
      ?_, ?_, ?_, ?_⟩
    · rw [BtStringMgr.upperLatin1_unspecified latin1Upper text h0 (by omega)]
      exact BtStringMgr.upperLatin1_explicit latin1Upper text _ h0 hn (by omega)
    · rw [take_min_length]
      exact content_copied _ _ _ (upperLatin1Source_ne_zero _ _)
    · rw [content_copied _ _ _ (upperLatin1Source_ne_zero _ _), List.length_take]
      omega
    · intro hlen
      rw [content_copied _ _ _ (upperLatin1Source_ne_zero _ _), List.dropLast_eq_take, hlen]
  · intro hn
    have hne : text ≠ [] := by
      intro h
      rw [h] at h0
      simp at h0
    refine ⟨text.set 0 0, ?_, content_set_zero text hne⟩
    rw [BtStringMgr.upperLatin1_unspecified latin1Upper text h0 (by omega), hn]
    exact BtStringMgr.upperLatin1_one latin1Upper text hne
  · refine ⟨_, BtStringMgr.upperUTF8_unspecified_eq utf8Upper latin1Upper text h0, ?_⟩
    rw [take_min_length]
    exact content_copied _ _ _ (upperUTF8Source_ne_zero _ _ _)

theorem upperLatin1_unspecified_capacity_witness :
    (0 : Byte) ∈ ([0x61, 0x62, 0x63, 0] : List Byte) ∧
      BtStringMgr.upperLatin1 asciiUpper [0x61, 0x62, 0x63, 0] 0 =
        BtStringMgr.upperLatin1 asciiUpper [0x61, 0x62, 0x63, 0]
          (content [0x61, 0x62, 0x63, 0]).length ∧
      BtStringMgr.upperLatin1 asciiUpper [0x61, 0x62, 0x63, 0] 0 =
        Except.ok [0x41, 0x42, 0, 0] ∧
      BtStringMgr.upperUTF8 asciiUpper asciiUpper [0x61, 0x62, 0x63, 0] 0 =
        Except.ok [0x41, 0x42, 0x43, 0] ∧
      BtStringMgr.upperLatin1 asciiUpper [0x61, 0] 0 = Except.ok [0, 0] ∧
      BtStringMgr.upperLatin1 asciiUpper [0, 0x61] 0 = Except.ok [0, 0x61] :=
  ⟨by decide,
    (upperLatin1_unspecified_capacity asciiUpper asciiUpper [0x61, 0x62, 0x63, 0]
      (by decide)).1 (by decide),
    by decide, by decide, by decide,
    (upperLatin1_unspecified_capacity asciiUpper asciiUpper [0, 0x61]
      (by decide)).2.2.2.1 (by decide)⟩

/-- C12: for every buffer content, `upperUTF8(text, 1)` and `upperLatin1(text, 1)`
leave the buffer holding the empty string (`text[0] = 0`): the result is the
buffer with a zero written at index 0, whatever the conversions are and whether
or not the text could be classified or read as a C string, and every byte at an
index from 1 on is kept. -/
theorem upper_capacity_one (utf8Upper latin1Upper : List Byte → List Byte)
    (text : List Byte) (h : text ≠ []) :
    BtStringMgr.upperUTF8 utf8Upper latin1Upper text 1 = Except.ok (text.set 0 0) ∧
    BtStringMgr.upperLatin1 latin1Upper text 1 = Except.ok (text.set 0 0) ∧
    content (text.set 0 0) = [] ∧ (text.set 0 0)[0]? = some 0 ∧
    (∀ j, 1 ≤ j → (text.set 0 0)[j]? = text[j]?) := by
  refine ⟨BtStringMgr.upperUTF8_one utf8Upper latin1Upper text h,
    BtStringMgr.upperLatin1_one latin1Upper text h, content_set_zero text h, ?_,
    fun j hj => set_zero_getElem text 0 j hj⟩
  cases text with
  | nil => exact absurd rfl h
  | cons a tl => simp

theorem upper_capacity_one_witness :
    ([0xC3, 0xA9, 0x62] : List Byte) ≠ [] ∧
      BtStringMgr.upperUTF8 asciiUpper asciiUpper [0xC3, 0xA9, 0x62] 1 =
        Except.ok [0, 0xA9, 0x62] ∧
      BtStringMgr.upperLatin1 asciiUpper [0xC3, 0xA9, 0x62] 1 = Except.ok [0, 0xA9, 0x62] ∧
      isUtf8 [0xC3, 0xA9, 0x62] = none :=
  ⟨by decide,
    (upper_capacity_one asciiUpper asciiUpper [0xC3, 0xA9, 0x62] (by decide)).1,
    (upper_capacity_one asciiUpper asciiUpper [0xC3, 0xA9, 0x62] (by decide)).2.1,
    by decide⟩

/-- C14: for every null-terminated buffer and every explicit capacity `c ≥ 1` (within
the buffer), `upperUTF8(text, c)` and `upperLatin1(text, c)` write only to the
indices `0..c-1`: the buffer keeps its length and every byte at an index `≥ c`
is the same after the call as before, however long the upper-cased text is. -/
theorem upper_frame (utf8Upper latin1Upper : List Byte → List Byte)
    (text : List Byte) (c : Nat) (h0 : (0 : Byte) ∈ text) (hc : 1 ≤ c)
    (hcap : c ≤ text.length) :
    (∃ out, BtStringMgr.upperUTF8 utf8Upper latin1Upper text c = Except.ok out ∧
      out.length = text.length ∧ ∀ j, c ≤ j → out[j]? = text[j]?) ∧
    (∃ out, BtStringMgr.upperLatin1 latin1Upper text c = Except.ok out ∧
      out.length = text.length ∧ ∀ j, c ≤ j → out[j]? = text[j]?) := by
  have hne : text ≠ [] := by
    intro h
    rw [h] at h0
    simp at h0
  by_cases h1 : c = 1
  · subst h1
    exact ⟨⟨_, BtStringMgr.upperUTF8_one utf8Upper latin1Upper text hne, by simp,
        fun j hj => set_zero_getElem text 0 j hj⟩,
      ⟨_, BtStringMgr.upperLatin1_one latin1Upper text hne, by simp,
        fun j hj => set_zero_getElem text 0 j hj⟩⟩
  · have h2 : 2 ≤ c := by omega
    exact ⟨⟨_, BtStringMgr.upperUTF8_explicit utf8Upper latin1Upper text c h0 h2 hcap,
        copied_length _ _ _ (by omega), fun j hj => copied_frame _ _ _ j (by omega)⟩,
      ⟨_, BtStringMgr.upperLatin1_explicit latin1Upper text c h0 h2 hcap,
        copied_length _ _ _ (by omega), fun j hj => copied_frame _ _ _ j (by omega)⟩⟩

theorem upper_frame_witness :
    (0 : Byte) ∈ ([0x61, 0x62, 0x63, 0x64, 0, 0x7A] : List Byte) ∧ 1 ≤ 3 ∧
      3 ≤ ([0x61, 0x62, 0x63, 0x64, 0, 0x7A] : List Byte).length ∧
      (∃ out, BtStringMgr.upperUTF8 asciiUpper asciiUpper
          [0x61, 0x62, 0x63, 0x64, 0, 0x7A] 3 = Except.ok out ∧
        out.length = ([0x61, 0x62, 0x63, 0x64, 0, 0x7A] : List Byte).length ∧
        ∀ j, 3 ≤ j → out[j]? = ([0x61, 0x62, 0x63, 0x64, 0, 0x7A] : List Byte)[j]?) ∧
      BtStringMgr.upperUTF8 asciiUpper asciiUpper [0x61, 0x62, 0x63, 0x64, 0, 0x7A] 3 =
        Except.ok [0x41, 0x42, 0, 0x64, 0, 0x7A] :=
  ⟨by decide, by decide, by decide,
    (upper_frame asciiUpper asciiUpper [0x61, 0x62, 0x63, 0x64, 0, 0x7A] 3
      (by decide) (by decide) (by decide)).1,
    by decide⟩

/-- C15: for every null-terminated buffer and every explicit capacity `c ≥ 2` (within
the buffer), `upperUTF8` chooses its conversion by `isUtf8` alone. When
`isUtf8(text)` is true the buffer receives the first `c-1` bytes of the UTF-8
re-encoding of the upper-cased UTF-8 decoding of the text, and a terminator;
when `isUtf8(text)` is false, as for every 7-bit text, the resulting buffer is
the one `upperLatin1(text, c)` produces. -/
theorem upperUTF8_pipeline (utf8Upper latin1Upper : List Byte → List Byte)
    (text : List Byte) (c : Nat) (h0 : (0 : Byte) ∈ text) (hc : 2 ≤ c)
    (hcap : c ≤ text.length) :
    (isUtf8 text = some true →
      BtStringMgr.upperUTF8 utf8Upper latin1Upper text c =
        Except.ok (copied text (content (utf8Upper (content text))) (c - 1))) ∧
    (isUtf8 text = some false →
      BtStringMgr.upperUTF8 utf8Upper latin1Upper text c =
        BtStringMgr.upperLatin1 latin1Upper text c) ∧
    ((∀ b ∈ content text, b.val ≤ 0x7F) →
      BtStringMgr.upperUTF8 utf8Upper latin1Upper text c =
        BtStringMgr.upperLatin1 latin1Upper text c) ∧
    (isUtf8 text = some true ∨ isUtf8 text = some false) := by
  have hU := BtStringMgr.upperUTF8_explicit utf8Upper latin1Upper text c h0 hc hcap
  have hL := BtStringMgr.upperLatin1_explicit latin1Upper text c h0 hc hcap
  have hfalse : isUtf8 text = some false →
      BtStringMgr.upperUTF8 utf8Upper latin1Upper text c =
        BtStringMgr.upperLatin1 latin1Upper text c := by
    intro h
    rw [hU, hL]
    unfold upperUTF8Source upperLatin1Source
    simp [h]
  refine ⟨?_, hfalse, ?_, ?_⟩
  · intro h
    rw [hU]
    unfold upperUTF8Source
    simp [h]
  · intro h7
    obtain ⟨rest, hrest⟩ := buffer_split text h0
    apply hfalse
    rw [isUtf8_eq_scan, hrest]
    exact scan_ascii_false rest (content text) (content_ne_zero text) h7
  · obtain ⟨b, hb⟩ := isUtf8_isSome text h0
    cases b
    · exact Or.inr hb
    · exact Or.inl hb

theorem upperUTF8_pipeline_witness :
    (0 : Byte) ∈ ([0x61, 0xC3, 0xA9, 0, 0x7A] : List Byte) ∧
      isUtf8 [0x61, 0xC3, 0xA9, 0, 0x7A] = some true ∧
      BtStringMgr.upperUTF8 (fun _ => [0x41, 0xC3, 0x89]) asciiUpper
          [0x61, 0xC3, 0xA9, 0, 0x7A] 4 =
        Except.ok (copied [0x61, 0xC3, 0xA9, 0, 0x7A]
          (content ((fun _ => [0x41, 0xC3, 0x89]) (content [0x61, 0xC3, 0xA9, 0, 0x7A])))
          (4 - 1)) ∧
      BtStringMgr.upperUTF8 (fun _ => [0x41, 0xC3, 0x89]) asciiUpper
          [0x61, 0xC3, 0xA9, 0, 0x7A] 4 = Except.ok [0x41, 0xC3, 0x89, 0, 0x7A] ∧
      isUtf8 [0x61, 0x62, 0, 0x7A] = some false ∧
      BtStringMgr.upperUTF8 (fun _ => [0x41, 0xC3, 0x89]) asciiUpper [0x61, 0x62, 0, 0x7A] 3 =
        BtStringMgr.upperLatin1 asciiUpper [0x61, 0x62, 0, 0x7A] 3 :=
  ⟨by decide, by decide,
    (upperUTF8_pipeline (fun _ => [0x41, 0xC3, 0x89]) asciiUpper [0x61, 0xC3, 0xA9, 0, 0x7A] 4
      (by decide) (by decide) (by decide)).1 (by decide),
    by decide, by decide,
    (upperUTF8_pipeline (fun _ => [0x41, 0xC3, 0x89]) asciiUpper [0x61, 0x62, 0, 0x7A] 3
      (by decide) (by decide) (by decide)).2.1 (by decide)⟩

theorem byteClass_invalid_iff : ∀ c : Byte,
    byteClass c = ByteClass.invalid ↔ (c.val = 0xFE ∨ c.val = 0xFF) := by decide

theorem not_continuation_of_permitted : ∀ c : Byte, permitted c → ¬ isContinuation c := by
  decide

theorem not_continuation_of_lt : ∀ c : Byte, c.val < 0x80 → ¬ isContinuation c := by
  decide

theorem not_continuation_of_ge : ∀ c : Byte, 0xC0 ≤ c.val → ¬ isContinuation c := by
  decide

theorem not_permitted_of_ge : ∀ c : Byte, 0x80 ≤ c.val → ¬ permitted c := by decide

/-- The walk reads only the class of each byte. -/
theorem scan_eq_scanClass :
    ∀ (s : List Byte) (p : Nat) (g : Bool), scan p g s = scanClass p g (s.map byteClass) := by
  intro s
  induction s with
  | nil => intro p g; cases p <;> simp [scan, scanClass]
  | cons c s ih =>
    intro p g
    rw [List.map_cons]
    rcases byte_cases c with h0 | hp | ⟨h7, hp⟩ | hcont | hlead
    · have hc : c = 0 := (val_eq_zero_iff c).1 h0
      have hcl : byteClass c = ByteClass.terminator := by simp [byteClass, h0]
      rw [hcl, hc, scan_terminator]
      cases p <;> simp [scanClass]
    · have hc0 := (permitted_facts c hp).1
      have hcl : byteClass c = ByteClass.permitted := by simp [byteClass, hc0, hp]
      rw [hcl]
      cases p with
      | zero =>
        rw [scan_permitted c g s hp, ih 0 g]
        simp [scanClass]
      | succ p =>
        rw [scan_not_continuation c p g s hc0 (not_continuation_of_permitted c hp)]
        simp [scanClass]
    · by_cases hc0 : c.val = 0
      · have hc : c = 0 := (val_eq_zero_iff c).1 hc0
        have hcl : byteClass c = ByteClass.terminator := by simp [byteClass, hc0]
        rw [hcl, hc, scan_terminator]
        cases p <;> simp [scanClass]
      · have hle : c.val ≤ 0x7F := by omega
        have hcl : byteClass c = ByteClass.otherSevenBit := by simp [byteClass, hc0, hp, hle]
        rw [hcl, scan_rejected_ascii c g s hc0 h7 hp p]
        cases p <;> simp [scanClass]
    · have hc0 := (continuation_facts c hcont).1
      have hge : 0x80 ≤ c.val := hcont.1
      have hnp := not_permitted_of_ge c hge
      have hnle : ¬ c.val ≤ 0x7F := by omega
      have hcl : byteClass c = ByteClass.continuation := by
        simp [byteClass, hc0, hnp, hnle, hcont]
      rw [hcl]
      cases p with
      | zero =>
        rw [scan_continuation_first c g s hcont]
        simp [scanClass]
      | succ p =>
        rw [scan_continuation c p g s hcont]
        simp only [scanClass]
        by_cases hp0 : p = 0
        · simp only [hp0, if_true]
          exact ih 0 true
        · simp only [hp0, if_false]
          exact ih p g
    · have hc0 := (lead_facts c hlead).1
      have hnp := not_permitted_of_ge c (by omega)
      have hnle : ¬ c.val ≤ 0x7F := by omega
      have hnc := not_continuation_of_ge c hlead
      cases hd : declared c with
      | none =>
        have hcl : byteClass c = ByteClass.invalid := by
          simp [byteClass, hc0, hnp, hnle, hnc, hd]
        rw [hcl]
        cases p with
        | zero =>
          rw [scan_no_declared c g s hlead hd]
          simp [scanClass]
        | succ p =>
          rw [scan_not_continuation c p g s hc0 hnc]
          simp [scanClass]
      | some k =>
        have hcl : byteClass c = ByteClass.lead k := by
          simp [byteClass, hc0, hnp, hnle, hnc, hd]
        rw [hcl]
        cases p with
        | zero =>
          rw [scan_lead c k g s hd, ih k g]
          simp [scanClass]
        | succ p =>
          rw [scan_not_continuation c p g s hc0 hnc]
          simp [scanClass]

theorem accepted_of_permitted :
    ∀ a : List Byte, (∀ x ∈ a, permitted x) → Accepted a false := by
  intro a
  induction a with
  | nil => intro _; exact Accepted.nil
  | cons x a ih =>
    intro h
    exact Accepted.single x a false (h x (by simp)) (ih (fun y hy => h y (by simp [hy])))

/-- With `gotone` set, the walk answers true exactly when every byte up to the
terminator is covered. -/
theorem scan_true_iff_covered (s rest : List Byte) (hs : ∀ b ∈ s, b ≠ 0) :
    scan 0 true (s ++ 0 :: rest) = some true ↔ EveryByteCoveredOrTail s := by
  constructor
  · intro h
    obtain ⟨b, hb, _⟩ := tokenised_of_scan_true rest _ s true (le_refl _) hs h
    exact covered_of_tokenised s b hb
  · intro h
    obtain ⟨b, hb⟩ := tokenised_of_covered _ s (le_refl _) h
    rw [scan_tokenised s b true rest hb]
    simp

/-- What lies behind the first zero byte does not matter to the walk. -/
theorem scan_ignores_rest (r1 r2 : List Byte) :
    ∀ (s : List Byte) (p : Nat) (g : Bool), (∀ b ∈ s, b ≠ 0) →
      scan p g (s ++ 0 :: r1) = scan p g (s ++ 0 :: r2) := by
  intro s
  induction s with
  | nil => intro p g _; simp [scan_terminator]
  | cons c s ih =>
    intro p g hs
    have hc : c.val ≠ 0 := fun h => hs c (by simp) ((val_eq_zero_iff c).1 h)
    have hs1 : ∀ b ∈ s, b ≠ 0 := fun b hb => hs b (by simp [hb])
    cases p with
    | zero =>
      simp only [List.cons_append, scan, hc, if_false]
      split_ifs
      · rfl
      · exact ih 0 g hs1
      · rfl
      · cases following c with
        | none => rfl
        | some k =>
          simp only
          split_ifs
          · exact ih 0 true hs1
          · exact ih k g hs1
    | succ p =>
      simp only [List.cons_append, scan, hc, if_false]
      split_ifs
      · rfl
      · exact ih 0 true hs1
      · exact ih p g hs1

/-- Two buffers that hold the same C string get the same answer. -/
theorem isUtf8_eq_of_content (buf1 buf2 : List Byte) (h1 : (0 : Byte) ∈ buf1)
    (h2 : (0 : Byte) ∈ buf2) (hc : content buf1 = content buf2) :
    isUtf8 buf1 = isUtf8 buf2 := by
  obtain ⟨r1, hr1⟩ := buffer_split buf1 h1
  obtain ⟨r2, hr2⟩ := buffer_split buf2 h2
  rw [isUtf8_eq_scan, isUtf8_eq_scan]
  conv_lhs => rw [hr1, hc]
  conv_rhs => rw [hr2]
  exact scan_ignores_rest r1 r2 (content buf2) 0 false (content_ne_zero buf2)

theorem content_terminated (s : List Byte) (hs : ∀ b ∈ s, b ≠ 0) :
    (0 : Byte) ∈ s ++ [0] ∧ content (s ++ [0]) = s :=
  ⟨by simp, content_append s [] hs⟩

/-- C16: on a buffer that holds a zero byte the scan of `isUtf8` terminates with a
result and reads no index beyond the first zero byte: the buffer cut off right
after its first zero byte, where any further read would leave the buffer, gives
the same result. Hence two buffers that agree up to and including their first
zero byte get the same result. -/
theorem isUtf8_stops_at_terminator (buf : List Byte) (h0 : (0 : Byte) ∈ buf) :
    (∃ b, isUtf8 buf = some b ∧ isUtf8 (content buf ++ [0]) = some b) ∧
    (∀ buf2 : List Byte, (0 : Byte) ∈ buf2 → content buf2 = content buf →
      isUtf8 buf2 = isUtf8 buf) := by
  refine ⟨?_, fun buf2 h2 hc => isUtf8_eq_of_content buf2 buf h2 h0 hc⟩
  obtain ⟨b, hb⟩ := isUtf8_isSome buf h0
  obtain ⟨hz, hcz⟩ := content_terminated (content buf) (content_ne_zero buf)
  exact ⟨b, hb, by rw [← hb]; exact isUtf8_eq_of_content _ buf hz h0 hcz⟩

theorem isUtf8_stops_at_terminator_witness :
    (0 : Byte) ∈ ([0xC3, 0xA9, 0xE2, 0x82, 0, 0xFF, 0x01] : List Byte) ∧
      (∃ b, isUtf8 [0xC3, 0xA9, 0xE2, 0x82, 0, 0xFF, 0x01] = some b ∧
        isUtf8 (content [0xC3, 0xA9, 0xE2, 0x82, 0, 0xFF, 0x01] ++ [0]) = some b) ∧
      isUtf8 [0xC3, 0xA9, 0xE2, 0x82, 0, 0xFF, 0x01] = some true ∧
      isUtf8 [0xC3, 0xA9, 0xE2, 0x82, 0] = some true ∧
      isUtf8 [0xC3, 0xA9, 0xE2, 0x82] = none :=
  ⟨by decide,
    (isUtf8_stops_at_terminator [0xC3, 0xA9, 0xE2, 0x82, 0, 0xFF, 0x01] (by decide)).1,
    by decide, by decide, by decide⟩

/-- C17: the result of `isUtf8` depends only on the class of each byte (terminator,
permitted ASCII, other 7-bit byte, continuation `10xxxxxx`, lead byte of a given
declared length, 0xFE/0xFF). Two buffers with the same classes byte by byte get
the same result, and replacing a byte by another byte of its class changes
nothing; the payload bits are not examined, so the overlong sequence `C0 80`
and the surrogate encoding `ED A0 80` are classified true. -/
theorem isUtf8_class_only :
    (∀ buf1 buf2 : List Byte, buf1.map byteClass = buf2.map byteClass →
      isUtf8 buf1 = isUtf8 buf2) ∧
    (∀ (buf : List Byte) (i : Nat) (x : Byte) (h : i < buf.length),
      byteClass x = byteClass (buf.get ⟨i, h⟩) → isUtf8 (buf.set i x) = isUtf8 buf) ∧
    isUtf8 [0xC0, 0x80, 0] = some true ∧ isUtf8 [0xED, 0xA0, 0x80, 0] = some true := by
  have main : ∀ buf1 buf2 : List Byte, buf1.map byteClass = buf2.map byteClass →
      isUtf8 buf1 = isUtf8 buf2 := by
    intro buf1 buf2 h
    rw [isUtf8_eq_scan, isUtf8_eq_scan, scan_eq_scanClass, scan_eq_scanClass, h]
  refine ⟨main, ?_, by decide, by decide⟩
  intro buf i x h hx
  apply main
  rw [List.map_set, hx]
  apply List.ext_getElem
  · simp
  · intro n h1 h2
    by_cases hn : i = n
    · subst hn
      simp
    · simp [List.getElem_set_ne hn]

theorem isUtf8_class_only_witness :
    List.map byteClass [0xC3, 0xA9, 0x41, 0] = List.map byteClass [0xC0, 0x80, 0x7E, 0] ∧
      isUtf8 [0xC3, 0xA9, 0x41, 0] = isUtf8 [0xC0, 0x80, 0x7E, 0] ∧
      byteClass 0xBF = byteClass 0xA9 ∧
      isUtf8 (([0xC3, 0xA9, 0x41, 0] : List Byte).set 1 0xBF) = isUtf8 [0xC3, 0xA9, 0x41, 0] :=
  ⟨by decide, isUtf8_class_only.1 [0xC3, 0xA9, 0x41, 0] [0xC0, 0x80, 0x7E, 0] (by decide),
    by decide, isUtf8_class_only.2.1 [0xC3, 0xA9, 0x41, 0] 1 0xBF (by decide) (by decide)⟩

/-- C18: for every sequence `a` of permitted ASCII bytes and every buffer `b`,
`isUtf8(a ++ b) = isUtf8(b)`; and for `a` made of permitted ASCII bytes and
complete well-formed multi-byte sequences, at least one of them a multi-byte
sequence, and `b` null-terminated, `isUtf8(a ++ b)` is true exactly when the scan
of `b` meets no rejecting byte, that is, when every byte of `b` before its
terminator is a permitted single-byte character, part of a well-formed
multi-byte sequence, or part of a truncated sequence at the end; it is false
otherwise. -/
theorem isUtf8_after_accepted :
    (∀ a b : List Byte, (∀ x ∈ a, permitted x) → isUtf8 (a ++ b) = isUtf8 b) ∧
    (∀ a b : List Byte, Accepted a true → (0 : Byte) ∈ b →
      ((isUtf8 (a ++ b) = some true ↔ EveryByteCoveredOrTail (content b)) ∧
        (isUtf8 (a ++ b) = some false ↔ ¬ EveryByteCoveredOrTail (content b)))) := by
  refine ⟨?_, ?_⟩
  · intro a b ha
    rw [isUtf8_eq_scan, isUtf8_eq_scan, scan_accepted a false (accepted_of_permitted a ha)]
    simp
  · intro a b ha h0
    obtain ⟨rest, hrest⟩ := buffer_split b h0
    have hscan : isUtf8 (a ++ b) = scan 0 true (content b ++ 0 :: rest) := by
      rw [isUtf8_eq_scan, scan_accepted a true ha]
      simp only [Bool.or_true]
      rw [← hrest]
    have key := scan_true_iff_covered (content b) rest (content_ne_zero b)
    rw [hscan]
    refine ⟨key, ?_⟩
    rw [← key]
    obtain ⟨r, hr⟩ := scan_isSome rest (content b) 0 true (content_ne_zero b)
    rw [hr]
    cases r <;> simp

theorem isUtf8_after_accepted_witness :
    (∀ x ∈ ([0x48, 0x69, 0x20] : List Byte), permitted x) ∧
      isUtf8 ([0x48, 0x69, 0x20] ++ [0xC3, 0xA9, 0]) = isUtf8 [0xC3, 0xA9, 0] ∧
      Accepted [0x41, 0xC3, 0xA9] true ∧
      (isUtf8 ([0x41, 0xC3, 0xA9] ++ [0x42, 0xE2, 0]) = some true ↔
        EveryByteCoveredOrTail (content [0x42, 0xE2, 0])) ∧
      isUtf8 ([0x41, 0xC3, 0xA9] ++ [0x42, 0xE2, 0]) = some true ∧
      isUtf8 ([0x41, 0xC3, 0xA9] ++ [0x42, 0x80, 0]) = some false :=
  have h1 : Accepted [0x41, 0xC3, 0xA9] true :=
    Accepted.single 0x41 _ true (by decide)
      (Accepted.seq [0xC3, 0xA9] [] false ⟨0xC3, [0xA9], rfl, by decide, by decide⟩
        Accepted.nil)
  ⟨by decide, isUtf8_after_accepted.1 [0x48, 0x69, 0x20] [0xC3, 0xA9, 0] (by decide),
    h1, (isUtf8_after_accepted.2 [0x41, 0xC3, 0xA9] [0x42, 0xE2, 0] h1 (by decide)).1,
    by decide, by decide⟩

theorem copied_mem_zero (dest s : List Byte) (n : Nat) : (0 : Byte) ∈ copied dest s n := by
  unfold copied
  simp

theorem copied_drop (dest s : List Byte) (n : Nat) :
    (copied dest s n).drop (n + 1) = dest.drop (n + 1) := by
  unfold copied
  have hlen : (s.take n ++ List.replicate (n - s.length) (0 : Byte)).length = n := by
    simp
    omega
  rw [List.drop_append_eq_append_drop, hlen]
  have h1 : n + 1 - n = 1 := by omega
  rw [h1, List.drop_of_length_le (by omega)]
  simp

/-- Copying the copied text again changes nothing. -/
theorem copied_idem (dest s : List Byte) (n : Nat) :
    copied (copied dest s n) (s.take n) n = copied dest s n := by
  have hd := copied_drop dest s n
  unfold copied at hd ⊢
  rw [hd, List.take_take, Nat.min_self, List.length_take]
  have : n - min n s.length = n - s.length := by omega
  rw [this]

theorem copied_self (s rest : List Byte) :
    copied (s ++ 0 :: rest) s s.length = s ++ 0 :: rest := by
  unfold copied
  rw [List.take_length, Nat.sub_self]
  simp

theorem copied_content_self (text : List Byte) (h0 : (0 : Byte) ∈ text) :
    copied text (content text) (content text).length = text := by
  obtain ⟨rest, hrest⟩ := buffer_split text h0
  have := copied_self (content text) rest
  rw [← hrest] at this
  exact this

theorem set_zero_idem (text : List Byte) : (text.set 0 0).set 0 0 = text.set 0 0 := by
  cases text <;> simp

theorem upperUTF8Source_congr (utf8Upper latin1Upper : List Byte → List Byte)
    (t1 t2 : List Byte) (h1 : (0 : Byte) ∈ t1) (h2 : (0 : Byte) ∈ t2)
    (hc : content t1 = content t2) :
    upperUTF8Source utf8Upper latin1Upper t1 = upperUTF8Source utf8Upper latin1Upper t2 := by
  unfold upperUTF8Source
  rw [isUtf8_eq_of_content t1 t2 h1 h2 hc, hc]

namespace BtStringMgr

/-- A second `upperUTF8` with the same explicit capacity changes nothing when the
buffer left by the first is upper-cased. -/
theorem upperUTF8_again (utf8Upper latin1Upper : List Byte → List Byte)
    (text : List Byte) (c : Nat) (h0 : (0 : Byte) ∈ text) (hc : 1 ≤ c)
    (hcap : c ≤ text.length) :
    ∃ out, upperUTF8 utf8Upper latin1Upper text c = Except.ok out ∧
      (UppercasedUTF8 utf8Upper latin1Upper out →
        upperUTF8 utf8Upper latin1Upper out c = Except.ok out) := by
  have hne : text ≠ [] := by
    intro h
    rw [h] at h0
    simp at h0
  by_cases h1 : c = 1
  · subst h1
    refine ⟨_, upperUTF8_one utf8Upper latin1Upper text hne, fun _ => ?_⟩
    have hne2 : text.set 0 0 ≠ [] := by
      cases text with
      | nil => exact absurd rfl hne
      | cons a tl => simp
    rw [upperUTF8_one utf8Upper latin1Upper _ hne2, set_zero_idem]
  · have h2 : 2 ≤ c := by omega
    refine ⟨_, upperUTF8_explicit utf8Upper latin1Upper text c h0 h2 hcap, fun hup => ?_⟩
    have hlen := copied_length text (upperUTF8Source utf8Upper latin1Upper text) (c - 1)
      (by omega)
    rw [upperUTF8_explicit utf8Upper latin1Upper _ c (copied_mem_zero _ _ _) h2
      (by omega)]
    unfold UppercasedUTF8 at hup
    rw [hup, content_copied _ _ _ (upperUTF8Source_ne_zero _ _ _), copied_idem]

theorem upperLatin1_again (latin1Upper : List Byte → List Byte)
    (text : List Byte) (c : Nat) (h0 : (0 : Byte) ∈ text) (hc : 1 ≤ c)
    (hcap : c ≤ text.length) :
    ∃ out, upperLatin1 latin1Upper text c = Except.ok out ∧
      (UppercasedLatin1 latin1Upper out →
        upperLatin1 latin1Upper out c = Except.ok out) := by
  have hne : text ≠ [] := by
    intro h
    rw [h] at h0
    simp at h0
  by_cases h1 : c = 1
  · subst h1
    refine ⟨_, upperLatin1_one latin1Upper text hne, fun _ => ?_⟩
    have hne2 : text.set 0 0 ≠ [] := by
      cases text with
      | nil => exact absurd rfl hne
      | cons a tl => simp
    rw [upperLatin1_one latin1Upper _ hne2, set_zero_idem]
  · have h2 : 2 ≤ c := by omega
    refine ⟨_, upperLatin1_explicit latin1Upper text c h0 h2 hcap, fun hup => ?_⟩
    have hlen := copied_length text (upperLatin1Source latin1Upper text) (c - 1) (by omega)
    rw [upperLatin1_explicit latin1Upper _ c (copied_mem_zero _ _ _) h2 (by omega)]
    unfold UppercasedLatin1 at hup
    rw [hup, content_copied _ _ _ (upperLatin1Source_ne_zero _ _), copied_idem]

/-- Without truncation an upper-cased buffer is left as it is, up to the zero
padding: the buffer after the call is upper-cased again. -/
theorem upperUTF8_keeps_uppercased (utf8Upper latin1Upper : List Byte → List Byte)
    (text : List Byte) (n : Nat) (h0 : (0 : Byte) ∈ text)
    (hn : (content text).length ≤ n)
    (hup : UppercasedUTF8 utf8Upper latin1Upper text) :
    UppercasedUTF8 utf8Upper latin1Upper
      (copied text (upperUTF8Source utf8Upper latin1Upper text) n) := by
  unfold UppercasedUTF8 at hup ⊢
  have hcont : content (copied text (upperUTF8Source utf8Upper latin1Upper text) n) =
      content text := by
    rw [content_copied _ _ _ (upperUTF8Source_ne_zero _ _ _), hup]
    exact List.take_of_length_le hn
  rw [upperUTF8Source_congr utf8Upper latin1Upper _ text (copied_mem_zero _ _ _) h0 hcont,
    hcont, hup]

theorem upperLatin1_keeps_uppercased (latin1Upper : List Byte → List Byte)
    (text : List Byte) (n : Nat) (hn : (content text).length ≤ n)
    (hup : UppercasedLatin1 latin1Upper text) :
    UppercasedLatin1 latin1Upper (copied text (upperLatin1Source latin1Upper text) n) := by
  unfold UppercasedLatin1 at hup ⊢
  have hcont : content (copied text (upperLatin1Source latin1Upper text) n) =
      content text := by
    rw [content_copied _ _ _ (upperLatin1Source_ne_zero _ _), hup]
    exact List.take_of_length_le hn
  have e : upperLatin1Source latin1Upper
      (copied text (upperLatin1Source latin1Upper text) n) =
      content (latin1Upper
        (content (copied text (upperLatin1Source latin1Upper text) n))) := rfl
  rw [e, hcont]
  exact hup

end BtStringMgr

theorem length_le_flatMap (g : Byte → List Byte) :
    ∀ s : List Byte, (∀ c ∈ s, g c ≠ []) → s.length ≤ (s.flatMap g).length := by
  intro s
  induction s with
  | nil => intro _; simp
  | cons c s ih =>
    intro h
    have hc : 0 < (g c).length := List.length_pos.2 (h c (by simp))
    have := ih (fun d hd => h d (by simp [hd]))
    simp only [List.flatMap_cons, List.length_append, List.length_cons]
    omega

/-- A fixed point of a character-wise conversion is fixed character by
character. -/
theorem flatMap_fixed (g : Byte → List Byte) :
    ∀ s : List Byte, (∀ c ∈ s, g c ≠ []) → s.flatMap g = s → ∀ c ∈ s, g c = [c] := by
  intro s
  induction s with
  | nil => intro _ _ c hc; simp at hc
  | cons a s ih =>
    intro hne hfix c hc
    have hs : ∀ d ∈ s, g d ≠ [] := fun d hd => hne d (by simp [hd])
    have hle := length_le_flatMap g s hs
    rw [List.flatMap_cons] at hfix
    cases hg : g a with
    | nil => exact absurd hg (hne a (by simp))
    | cons d r =>
      rw [hg, List.cons_append] at hfix
      simp only [List.cons.injEq] at hfix
      obtain ⟨hd, hrest⟩ := hfix
      have hlen := congrArg List.length hrest
      simp only [List.length_append] at hlen
      have hr : r = [] := List.length_eq_zero.1 (by omega)
      rw [hr, List.nil_append] at hrest
      rcases List.mem_cons.1 hc with rfl | hc
      · rw [hg, hd, hr]
      · exact ih hs hrest c hc

theorem flatMap_of_fixed (g : Byte → List Byte) :
    ∀ t : List Byte, (∀ c ∈ t, g c = [c]) → t.flatMap g = t := by
  intro t
  induction t with
  | nil => intro _; simp
  | cons a t ih =>
    intro h
    rw [List.flatMap_cons, h a (by simp), ih (fun c hc => h c (by simp [hc]))]
    rfl

theorem flatMap_ne_zero (g : Byte → List Byte)
    (hg : ∀ c : Byte, c ≠ 0 → g c ≠ [] ∧ ∀ b ∈ g c, b ≠ 0) :
    ∀ s : List Byte, (∀ c ∈ s, c ≠ 0) → ∀ b ∈ s.flatMap g, b ≠ 0 := by
  intro s hs b hb
  rw [List.mem_flatMap] at hb
  obtain ⟨c, hc, hbc⟩ := hb
  exact (hg c (hs c hc)).2 b hbc

/-- Every cut of an upper-cased text is upper-cased, for a character-wise
conversion. -/
theorem characterWise_take (conv : List Byte → List Byte) (hconv : CharacterWise conv)
    (s : List Byte) (hs : ∀ c ∈ s, c ≠ 0) (hfix : content (conv s) = s) (k : Nat) :
    content (conv (s.take k)) = s.take k := by
  obtain ⟨g, hg, hflat⟩ := hconv
  have hne : ∀ c ∈ s, g c ≠ [] := fun c hc => (hg c (hs c hc)).1
  rw [hflat, content_eq_self _ (flatMap_ne_zero g hg s hs)] at hfix
  have hpt := flatMap_fixed g s hne hfix
  have htake : (s.take k).flatMap g = s.take k :=
    flatMap_of_fixed g _ (fun c hc => hpt c (List.mem_of_mem_take hc))
  rw [hflat, htake]
  exact content_eq_self _ (fun c hc => hs c (List.mem_of_mem_take hc))

theorem asciiUpper_characterWise : CharacterWise asciiUpper := by
  refine ⟨fun c => [if 0x61 ≤ c.val ∧ c.val ≤ 0x7A then c - 0x20 else c], ?_, ?_⟩
  · have key : ∀ c : Byte, c ≠ 0 →
        (if 0x61 ≤ c.val ∧ c.val ≤ 0x7A then c - 0x20 else c) ≠ 0 := by decide
    intro c hc
    refine ⟨by simp, ?_⟩
    intro b hb
    simp only [List.mem_singleton] at hb
    rw [hb]
    exact key c hc
  · intro s
    unfold asciiUpper
    induction s with
    | nil => rfl
    | cons a s ih => simp [List.flatMap_cons, ih]

namespace BtStringMgr

/-- After `upperLatin1` with an explicit capacity the buffer is upper-cased again,
for a character-wise conversion. -/
theorem upperLatin1_cut_uppercased (latin1Upper : List Byte → List Byte)
    (hconv : CharacterWise latin1Upper) (text : List Byte) (n : Nat)
    (hup : UppercasedLatin1 latin1Upper text) :
    UppercasedLatin1 latin1Upper (copied text (upperLatin1Source latin1Upper text) n) := by
  unfold UppercasedLatin1 at hup ⊢
  have hcont : content (copied text (upperLatin1Source latin1Upper text) n) =
      (content text).take n := by
    rw [content_copied _ _ _ (upperLatin1Source_ne_zero _ _), hup]
  have e : upperLatin1Source latin1Upper
      (copied text (upperLatin1Source latin1Upper text) n) =
      content (latin1Upper
        (content (copied text (upperLatin1Source latin1Upper text) n))) := rfl
  rw [e, hcont]
  exact characterWise_take latin1Upper hconv (content text) (content_ne_zero text) hup n

/-- After `upperUTF8` with an explicit capacity a 7-bit buffer is upper-cased
again, for a character-wise Latin-1 conversion. -/
theorem upperUTF8_cut_uppercased (utf8Upper latin1Upper : List Byte → List Byte)
    (hconv : CharacterWise latin1Upper) (text : List Byte) (n : Nat)
    (h0 : (0 : Byte) ∈ text) (h7 : ∀ b ∈ content text, b.val ≤ 0x7F)
    (hup : UppercasedUTF8 utf8Upper latin1Upper text) :
    UppercasedUTF8 utf8Upper latin1Upper
      (copied text (upperUTF8Source utf8Upper latin1Upper text) n) := by
  have hfalse : ∀ t : List Byte, (0 : Byte) ∈ t → (∀ b ∈ content t, b.val ≤ 0x7F) →
      upperUTF8Source utf8Upper latin1Upper t = content (latin1Upper (content t)) := by
    intro t ht h7t
    obtain ⟨rest, hrest⟩ := buffer_split t ht
    have hf : isUtf8 t = some false := by
      rw [isUtf8_eq_scan, hrest]
      exact scan_ascii_false rest (content t) (content_ne_zero t) h7t
    unfold upperUTF8Source
    simp [hf]
  unfold UppercasedUTF8 at hup ⊢
  have hsrc := hfalse text h0 h7
  have hfix : content (latin1Upper (content text)) = content text := by
    rw [← hsrc]
    exact hup
  have hcont : content (copied text (upperUTF8Source utf8Upper latin1Upper text) n) =
      (content text).take n := by
    rw [content_copied _ _ _ (upperUTF8Source_ne_zero _ _ _), hup]
  have h7cut : ∀ b ∈ content (copied text (upperUTF8Source utf8Upper latin1Upper text) n),
      b.val ≤ 0x7F := by
    intro b hb
    rw [hcont] at hb
    exact h7 b (List.mem_of_mem_take hb)
  rw [hfalse _ (copied_mem_zero _ _ _) h7cut, hcont]
  exact characterWise_take latin1Upper hconv (content text) (content_ne_zero text) hfix n

end BtStringMgr

namespace BtStringMgr

/-- After `upperUTF8` with an explicit capacity a buffer classified as not UTF-8,
whose cut text is classified as not UTF-8 too, is upper-cased again, for a
character-wise Latin-1 conversion. -/
theorem upperUTF8_cut_uppercased_latin1 (utf8Upper latin1Upper : List Byte → List Byte)
    (hconv : CharacterWise latin1Upper) (text : List Byte) (n : Nat)
    (hf : isUtf8 text = some false)
    (hfcut : isUtf8 ((content text).take n ++ [0]) = some false)
    (hup : UppercasedUTF8 utf8Upper latin1Upper text) :
    UppercasedUTF8 utf8Upper latin1Upper
      (copied text (upperUTF8Source utf8Upper latin1Upper text) n) := by
  have hfalse : ∀ t : List Byte, isUtf8 t = some false →
      upperUTF8Source utf8Upper latin1Upper t = content (latin1Upper (content t)) := by
    intro t ht
    unfold upperUTF8Source
    simp [ht]
  unfold UppercasedUTF8 at hup ⊢
  have hfix : content (latin1Upper (content text)) = content text := by
    rw [← hfalse text hf]
    exact hup
  have hcont : content (copied text (upperUTF8Source utf8Upper latin1Upper text) n) =
      (content text).take n := by
    rw [content_copied _ _ _ (upperUTF8Source_ne_zero _ _ _), hup]
  have hzf : ∀ b ∈ (content text).take n, b ≠ 0 :=
    fun b hb => content_ne_zero text b (List.mem_of_mem_take hb)
  obtain ⟨hz, hcz⟩ := content_terminated ((content text).take n) hzf
  have hfout : isUtf8 (copied text (upperUTF8Source utf8Upper latin1Upper text) n) =
      some false := by
    rw [isUtf8_eq_of_content _ _ (copied_mem_zero _ _ _) hz (by rw [hcont, hcz])]
    exact hfcut
  rw [hfalse _ hfout, hcont]
  exact characterWise_take latin1Upper hconv (content text) (content_ne_zero text) hfix n

end BtStringMgr

/-- C13 as stated fails in three places. With an unspecified capacity
`upperLatin1` drops a byte at every call: the upper-cased text `"ABC"` becomes
`"AB"` and then `"A"`. With an explicit capacity that cuts the text `upperUTF8`
classifies the cut text anew. `C3 A9 80` is not UTF-8 and is upper case as
Latin-1; capacity 3 leaves `C3 A9`, which is UTF-8 (`é`) and which the second
call upper-cases to `C3 89` (`É`). `E2 82 AC` is UTF-8 (the euro sign, which has
no case); capacity 2 leaves `E2`, which is not UTF-8 and which the second call
upper-cases as Latin-1 (`â`) to `C2` (`Â`). The last two hold for all conversions
that agree on these texts. -/
theorem upper_idempotent_counterexample :
    ((0 : Byte) ∈ ([0x41, 0x42, 0x43, 0] : List Byte) ∧
      UppercasedLatin1 asciiUpper [0x41, 0x42, 0x43, 0] ∧
      BtStringMgr.upperLatin1 asciiUpper [0x41, 0x42, 0x43, 0] 0 =
        Except.ok [0x41, 0x42, 0, 0] ∧
      BtStringMgr.upperLatin1 asciiUpper [0x41, 0x42, 0, 0] 0 = Except.ok [0x41, 0, 0, 0] ∧
      content ([0x41, 0, 0, 0] : List Byte) ≠ content [0x41, 0x42, 0, 0]) ∧
    (UppercasedUTF8 accentUpper latin1CaseUpper [0xC3, 0xA9, 0x80, 0] ∧
      BtStringMgr.upperUTF8 accentUpper latin1CaseUpper [0xC3, 0xA9, 0x80, 0] 3 =
        Except.ok [0xC3, 0xA9, 0, 0] ∧
      BtStringMgr.upperUTF8 accentUpper latin1CaseUpper [0xC3, 0xA9, 0, 0] 3 =
        Except.ok [0xC3, 0x89, 0, 0] ∧
      content ([0xC3, 0x89, 0, 0] : List Byte) ≠ content [0xC3, 0xA9, 0, 0]) ∧
    (UppercasedUTF8 accentUpper latin1CaseUpper [0xE2, 0x82, 0xAC, 0] ∧
      BtStringMgr.upperUTF8 accentUpper latin1CaseUpper [0xE2, 0x82, 0xAC, 0] 2 =
        Except.ok [0xE2, 0, 0xAC, 0] ∧
      BtStringMgr.upperUTF8 accentUpper latin1CaseUpper [0xE2, 0, 0xAC, 0] 2 =
        Except.ok [0xC2, 0, 0xAC, 0] ∧
      content ([0xC2, 0, 0xAC, 0] : List Byte) ≠ content [0xE2, 0, 0xAC, 0]) ∧
    (∀ utf8Upper latin1Upper : List Byte → List Byte,
      latin1Upper [0xC3, 0xA9, 0x80] = [0xC3, 0xA9, 0x80] →
      utf8Upper [0xC3, 0xA9] = [0xC3, 0x89] →
      UppercasedUTF8 utf8Upper latin1Upper [0xC3, 0xA9, 0x80, 0] ∧
      BtStringMgr.upperUTF8 utf8Upper latin1Upper [0xC3, 0xA9, 0x80, 0] 3 =
        Except.ok [0xC3, 0xA9, 0, 0] ∧
      BtStringMgr.upperUTF8 utf8Upper latin1Upper [0xC3, 0xA9, 0, 0] 3 =
        Except.ok [0xC3, 0x89, 0, 0]) ∧
    (∀ utf8Upper latin1Upper : List Byte → List Byte,
      utf8Upper [0xE2, 0x82, 0xAC] = [0xE2, 0x82, 0xAC] →
      latin1Upper [0xE2] = [0xC2] →
      UppercasedUTF8 utf8Upper latin1Upper [0xE2, 0x82, 0xAC, 0] ∧
      BtStringMgr.upperUTF8 utf8Upper latin1Upper [0xE2, 0x82, 0xAC, 0] 2 =
        Except.ok [0xE2, 0, 0xAC, 0] ∧
      BtStringMgr.upperUTF8 utf8Upper latin1Upper [0xE2, 0, 0xAC, 0] 2 =
        Except.ok [0xC2, 0, 0xAC, 0]) := by
  refine ⟨⟨by decide, ?_, by decide, by decide, by decide⟩,
    ⟨?_, by decide, by decide, by decide⟩, ⟨?_, by decide, by decide, by decide⟩, ?_, ?_⟩
  · unfold UppercasedLatin1
    decide
  · unfold UppercasedUTF8
    decide
  · unfold UppercasedUTF8
    decide
  · intro utf8Upper latin1Upper hl hu
    have hc1 : content ([0xC3, 0xA9, 0x80, 0] : List Byte) = [0xC3, 0xA9, 0x80] := by decide
    have hc2 : content ([0xC3, 0xA9, 0, 0] : List Byte) = [0xC3, 0xA9] := by decide
    have hf1 : isUtf8 [0xC3, 0xA9, 0x80, 0] = some false := by decide
    have hf2 : isUtf8 [0xC3, 0xA9, 0, 0] = some true := by decide
    have hs1 : upperUTF8Source utf8Upper latin1Upper [0xC3, 0xA9, 0x80, 0] =
        [0xC3, 0xA9, 0x80] := by
      unfold upperUTF8Source
      rw [hf1, hc1]
      simp only [Option.some.injEq, Bool.false_eq_true, if_false]
      rw [hl]
      decide
    have hs2 : upperUTF8Source utf8Upper latin1Upper [0xC3, 0xA9, 0, 0] =
        [0xC3, 0x89] := by
      unfold upperUTF8Source
      rw [hf2, hc2]
      simp only [if_true]
      rw [hu]
      decide
    refine ⟨?_, ?_, ?_⟩
    · unfold UppercasedUTF8
      rw [hs1, hc1]
    · rw [BtStringMgr.upperUTF8_explicit utf8Upper latin1Upper _ 3 (by decide) (by decide)
        (by decide), hs1]
      decide
    · rw [BtStringMgr.upperUTF8_explicit utf8Upper latin1Upper _ 3 (by decide) (by decide)
        (by decide), hs2]
      decide
  · intro utf8Upper latin1Upper hu hl
    have hc1 : content ([0xE2, 0x82, 0xAC, 0] : List Byte) = [0xE2, 0x82, 0xAC] := by decide
    have hc2 : content ([0xE2, 0, 0xAC, 0] : List Byte) = [0xE2] := by decide
    have hf1 : isUtf8 [0xE2, 0x82, 0xAC, 0] = some true := by decide
    have hf2 : isUtf8 [0xE2, 0, 0xAC, 0] = some false := by decide
    have hs1 : upperUTF8Source utf8Upper latin1Upper [0xE2, 0x82, 0xAC, 0] =
        [0xE2, 0x82, 0xAC] := by
      unfold upperUTF8Source
      rw [hf1, hc1]
      simp only [if_true]
      rw [hu]
      decide
    have hs2 : upperUTF8Source utf8Upper latin1Upper [0xE2, 0, 0xAC, 0] = [0xC2] := by
      unfold upperUTF8Source
      rw [hf2, hc2]
      simp only [Option.some.injEq, Bool.false_eq_true, if_false]
      rw [hl]
      decide
    refine ⟨?_, ?_, ?_⟩
    · unfold UppercasedUTF8
      rw [hs1, hc1]
    · rw [BtStringMgr.upperUTF8_explicit utf8Upper latin1Upper _ 2 (by decide) (by decide)
        (by decide), hs1]
      decide
    · rw [BtStringMgr.upperUTF8_explicit utf8Upper latin1Upper _ 2 (by decide) (by decide)
        (by decide), hs2]
      decide

/-- C13, as amended: for every null-terminated buffer already fully upper-cased in
its classified encoding, applying the fold twice leaves the same buffer as
applying it once: `upperUTF8` with an unspecified capacity; `upperUTF8` and
`upperLatin1` with an explicit capacity `c > strlen(text)` within the buffer;
`upperLatin1` with every explicit capacity `c ≥ 1` within the buffer, truncating
ones included, for a Latin-1 conversion that works character by character; and
`upperUTF8` with every such capacity on a text that is classified as not UTF-8
and whose cut to `c-1` bytes is classified as not UTF-8 too, as every 7-bit text
is. (`upperLatin1` with an unspecified capacity, and `upperUTF8` with a capacity
that cuts a text classified as UTF-8 or cuts a text into one classified as
UTF-8, are not covered.) -/
theorem upper_idempotent (utf8Upper latin1Upper : List Byte → List Byte)
    (text : List Byte) (h0 : (0 : Byte) ∈ text) :
    (UppercasedUTF8 utf8Upper latin1Upper text →
      BtStringMgr.upperUTF8 utf8Upper latin1Upper text 0 = Except.ok text ∧
      (BtStringMgr.upperUTF8 utf8Upper latin1Upper text 0 >>= fun out =>
          BtStringMgr.upperUTF8 utf8Upper latin1Upper out 0) =
        BtStringMgr.upperUTF8 utf8Upper latin1Upper text 0) ∧
    (∀ c, (content text).length < c → c ≤ text.length →
      UppercasedUTF8 utf8Upper latin1Upper text →
      ∃ out, BtStringMgr.upperUTF8 utf8Upper latin1Upper text c = Except.ok out ∧
        content out = content text ∧
        BtStringMgr.upperUTF8 utf8Upper latin1Upper out c = Except.ok out) ∧
    (∀ c, (content text).length < c → c ≤ text.length →
      UppercasedLatin1 latin1Upper text →
      ∃ out, BtStringMgr.upperLatin1 latin1Upper text c = Except.ok out ∧
        content out = content text ∧
        BtStringMgr.upperLatin1 latin1Upper out c = Except.ok out) ∧
    (CharacterWise latin1Upper → ∀ c, 1 ≤ c → c ≤ text.length →
      UppercasedLatin1 latin1Upper text →
      ∃ out, BtStringMgr.upperLatin1 latin1Upper text c = Except.ok out ∧
        content out = (content text).take (c - 1) ∧
        BtStringMgr.upperLatin1 latin1Upper out c = Except.ok out) ∧
    (CharacterWise latin1Upper → (∀ b ∈ content text, b.val ≤ 0x7F) →
      ∀ c, 1 ≤ c → c ≤ text.length → UppercasedUTF8 utf8Upper latin1Upper text →
      ∃ out, BtStringMgr.upperUTF8 utf8Upper latin1Upper text c = Except.ok out ∧
        content out = (content text).take (c - 1) ∧
        BtStringMgr.upperUTF8 utf8Upper latin1Upper out c = Except.ok out) ∧
    (CharacterWise latin1Upper → isUtf8 text = some false →
      ∀ c, 1 ≤ c → c ≤ text.length →
      isUtf8 ((content text).take (c - 1) ++ [0]) = some false →
      UppercasedUTF8 utf8Upper latin1Upper text →
      ∃ out, BtStringMgr.upperUTF8 utf8Upper latin1Upper text c = Except.ok out ∧
        content out = (content text).take (c - 1) ∧
        BtStringMgr.upperUTF8 utf8Upper latin1Upper out c = Except.ok out) := by
  have hne : text ≠ [] := by
    intro h
    rw [h] at h0
    simp at h0
  have hne2 : text.set 0 0 ≠ [] := by
    cases text with
    | nil => exact absurd rfl hne
    | cons a tl => simp
  refine ⟨?_, ?_, ?_, ?_, ?_, ?_⟩
  · intro hup
    have h1 : BtStringMgr.upperUTF8 utf8Upper latin1Upper text 0 = Except.ok text := by
      rw [BtStringMgr.upperUTF8_unspecified_eq utf8Upper latin1Upper text h0, hup,
        copied_content_self text h0]
    refine ⟨h1, ?_⟩
    rw [h1]
    simp only [bind, Except.bind]
    exact h1
  · intro c hlt hcap hup
    by_cases h1 : c = 1
    · subst h1
      have hcont : content text = [] := List.length_eq_zero.1 (by omega)
      refine ⟨_, BtStringMgr.upperUTF8_one utf8Upper latin1Upper text hne, ?_, ?_⟩
      · rw [content_set_zero text hne, hcont]
      · rw [BtStringMgr.upperUTF8_one utf8Upper latin1Upper _ hne2, set_zero_idem]
    · have h2 : 2 ≤ c := by omega
      obtain ⟨out, hout, hagain⟩ :=
        BtStringMgr.upperUTF8_again utf8Upper latin1Upper text c h0 (by omega) hcap
      have heq := BtStringMgr.upperUTF8_explicit utf8Upper latin1Upper text c h0 h2 hcap
      rw [heq] at hout
      have hout2 : copied text (upperUTF8Source utf8Upper latin1Upper text) (c - 1) = out :=
        Except.ok.inj hout
      have hkeep := BtStringMgr.upperUTF8_keeps_uppercased utf8Upper latin1Upper text
        (c - 1) h0 (by omega) hup
      rw [hout2] at hkeep
      refine ⟨out, by rw [heq, hout2], ?_, hagain hkeep⟩
      rw [← hout2, content_copied _ _ _ (upperUTF8Source_ne_zero _ _ _), hup]
      exact List.take_of_length_le (by omega)
  · intro c hlt hcap hup
    by_cases h1 : c = 1
    · subst h1
      have hcont : content text = [] := List.length_eq_zero.1 (by omega)
      refine ⟨_, BtStringMgr.upperLatin1_one latin1Upper text hne, ?_, ?_⟩
      · rw [content_set_zero text hne, hcont]
      · rw [BtStringMgr.upperLatin1_one latin1Upper _ hne2, set_zero_idem]
    · have h2 : 2 ≤ c := by omega
      obtain ⟨out, hout, hagain⟩ :=
        BtStringMgr.upperLatin1_again latin1Upper text c h0 (by omega) hcap
      have heq := BtStringMgr.upperLatin1_explicit latin1Upper text c h0 h2 hcap
      rw [heq] at hout
      have hout2 : copied text (upperLatin1Source latin1Upper text) (c - 1) = out :=
        Except.ok.inj hout
      have hkeep := BtStringMgr.upperLatin1_keeps_uppercased latin1Upper text
        (c - 1) (by omega) hup
      rw [hout2] at hkeep
      refine ⟨out, by rw [heq, hout2], ?_, hagain hkeep⟩
      unfold UppercasedLatin1 at hup
      rw [← hout2, content_copied _ _ _ (upperLatin1Source_ne_zero _ _), hup]
      exact List.take_of_length_le (by omega)
  · intro hconv c hc hcap hup
    by_cases h1 : c = 1
    · subst h1
      refine ⟨_, BtStringMgr.upperLatin1_one latin1Upper text hne, ?_, ?_⟩
      · rw [content_set_zero text hne]
        simp
      · rw [BtStringMgr.upperLatin1_one latin1Upper _ hne2, set_zero_idem]
    · have h2 : 2 ≤ c := by omega
      obtain ⟨out, hout, hagain⟩ :=
        BtStringMgr.upperLatin1_again latin1Upper text c h0 (by omega) hcap
      have heq := BtStringMgr.upperLatin1_explicit latin1Upper text c h0 h2 hcap
      rw [heq] at hout
      have hout2 : copied text (upperLatin1Source latin1Upper text) (c - 1) = out :=
        Except.ok.inj hout
      have hkeep := BtStringMgr.upperLatin1_cut_uppercased latin1Upper hconv text
        (c - 1) hup
      rw [hout2] at hkeep
      refine ⟨out, by rw [heq, hout2], ?_, hagain hkeep⟩
      unfold UppercasedLatin1 at hup
      rw [← hout2, content_copied _ _ _ (upperLatin1Source_ne_zero _ _), hup]
  · intro hconv h7 c hc hcap hup
    by_cases h1 : c = 1
    · subst h1
      refine ⟨_, BtStringMgr.upperUTF8_one utf8Upper latin1Upper text hne, ?_, ?_⟩
      · rw [content_set_zero text hne]
        simp
      · rw [BtStringMgr.upperUTF8_one utf8Upper latin1Upper _ hne2, set_zero_idem]
    · have h2 : 2 ≤ c := by omega
      obtain ⟨out, hout, hagain⟩ :=
        BtStringMgr.upperUTF8_again utf8Upper latin1Upper text c h0 (by omega) hcap
      have heq := BtStringMgr.upperUTF8_explicit utf8Upper latin1Upper text c h0 h2 hcap
      rw [heq] at hout
      have hout2 : copied text (upperUTF8Source utf8Upper latin1Upper text) (c - 1) = out :=
        Except.ok.inj hout
      have hkeep := BtStringMgr.upperUTF8_cut_uppercased utf8Upper latin1Upper hconv text
        (c - 1) h0 h7 hup
      rw [hout2] at hkeep
      refine ⟨out, by rw [heq, hout2], ?_, hagain hkeep⟩
      unfold UppercasedUTF8 at hup
      rw [← hout2, content_copied _ _ _ (upperUTF8Source_ne_zero _ _ _), hup]
  · intro hconv hf c hc hcap hfcut hup
    by_cases h1 : c = 1
    · subst h1
      refine ⟨_, BtStringMgr.upperUTF8_one utf8Upper latin1Upper text hne, ?_, ?_⟩
      · rw [content_set_zero text hne]
        simp
      · rw [BtStringMgr.upperUTF8_one utf8Upper latin1Upper _ hne2, set_zero_idem]
    · have h2 : 2 ≤ c := by omega
      obtain ⟨out, hout, hagain⟩ :=
        BtStringMgr.upperUTF8_again utf8Upper latin1Upper text c h0 (by omega) hcap
      have heq := BtStringMgr.upperUTF8_explicit utf8Upper latin1Upper text c h0 h2 hcap
      rw [heq] at hout
      have hout2 : copied text (upperUTF8Source utf8Upper latin1Upper text) (c - 1) = out :=
        Except.ok.inj hout
      have hkeep := BtStringMgr.upperUTF8_cut_uppercased_latin1 utf8Upper latin1Upper hconv
        text (c - 1) hf hfcut hup
      rw [hout2] at hkeep
      refine ⟨out, by rw [heq, hout2], ?_, hagain hkeep⟩
      unfold UppercasedUTF8 at hup
      rw [← hout2, content_copied _ _ _ (upperUTF8Source_ne_zero _ _ _), hup]

theorem upper_idempotent_witness :
    (0 : Byte) ∈ ([0x41, 0x42, 0x43, 0, 0x7A] : List Byte) ∧
      UppercasedUTF8 asciiUpper asciiUpper [0x41, 0x42, 0x43, 0, 0x7A] ∧
      UppercasedLatin1 asciiUpper [0x41, 0x42, 0x43, 0, 0x7A] ∧
      CharacterWise asciiUpper ∧
      BtStringMgr.upperUTF8 asciiUpper asciiUpper [0x41, 0x42, 0x43, 0, 0x7A] 0 =
        Except.ok [0x41, 0x42, 0x43, 0, 0x7A] ∧
      (∃ out, BtStringMgr.upperLatin1 asciiUpper [0x41, 0x42, 0x43, 0, 0x7A] 5 =
          Except.ok out ∧ content out = content [0x41, 0x42, 0x43, 0, 0x7A] ∧
        BtStringMgr.upperLatin1 asciiUpper out 5 = Except.ok out) ∧
      (∃ out, BtStringMgr.upperLatin1 asciiUpper [0x41, 0x42, 0x43, 0, 0x7A] 3 =
          Except.ok out ∧
        content out = (content [0x41, 0x42, 0x43, 0, 0x7A]).take (3 - 1) ∧
        BtStringMgr.upperLatin1 asciiUpper out 3 = Except.ok out) ∧
      (∃ out, BtStringMgr.upperUTF8 asciiUpper asciiUpper [0x41, 0x42, 0x43, 0, 0x7A] 3 =
          Except.ok out ∧
        content out = (content [0x41, 0x42, 0x43, 0, 0x7A]).take (3 - 1) ∧
        BtStringMgr.upperUTF8 asciiUpper asciiUpper out 3 = Except.ok out) ∧
      isUtf8 [0xC9, 0x41, 0xC9, 0] = some false ∧
      isUtf8 ((content [0xC9, 0x41, 0xC9, 0]).take (3 - 1) ++ [0]) = some false ∧
      (∃ out, BtStringMgr.upperUTF8 asciiUpper asciiUpper [0xC9, 0x41, 0xC9, 0] 3 =
          Except.ok out ∧
        content out = (content [0xC9, 0x41, 0xC9, 0]).take (3 - 1) ∧
        BtStringMgr.upperUTF8 asciiUpper asciiUpper out 3 = Except.ok out) ∧
      BtStringMgr.upperLatin1 asciiUpper [0x41, 0x42, 0x43, 0, 0x7A] 3 =
        Except.ok [0x41, 0x42, 0, 0, 0x7A] ∧
      BtStringMgr.upperLatin1 asciiUpper [0x41, 0x42, 0, 0, 0x7A] 3 =
        Except.ok [0x41, 0x42, 0, 0, 0x7A] :=
  have hU : UppercasedUTF8 asciiUpper asciiUpper [0x41, 0x42, 0x43, 0, 0x7A] := by
    unfold UppercasedUTF8
    decide
  have hL : UppercasedLatin1 asciiUpper [0x41, 0x42, 0x43, 0, 0x7A] := by
    unfold UppercasedLatin1
    decide
  have hU2 : UppercasedUTF8 asciiUpper asciiUpper [0xC9, 0x41, 0xC9, 0] := by
    unfold UppercasedUTF8
    decide
  ⟨by decide, hU, hL, asciiUpper_characterWise,
    ((upper_idempotent asciiUpper asciiUpper [0x41, 0x42, 0x43, 0, 0x7A] (by decide)).1 hU).1,
    (upper_idempotent asciiUpper asciiUpper [0x41, 0x42, 0x43, 0, 0x7A] (by decide)).2.2.1 5
      (by decide) (by decide) hL,
    (upper_idempotent asciiUpper asciiUpper [0x41, 0x42, 0x43, 0, 0x7A]
      (by decide)).2.2.2.1 asciiUpper_characterWise 3 (by decide) (by decide) hL,
    (upper_idempotent asciiUpper asciiUpper [0x41, 0x42, 0x43, 0, 0x7A]
      (by decide)).2.2.2.2.1 asciiUpper_characterWise (by decide) 3 (by decide) (by decide)
      hU,
    by decide, by decide,
    (upper_idempotent asciiUpper asciiUpper [0xC9, 0x41, 0xC9, 0]
      (by decide)).2.2.2.2.2 asciiUpper_characterWise (by decide) 3 (by decide) (by decide)
      (by decide) hU2,
    by decide, by decide⟩

namespace CBibleKeyChooser

theorem appendIfBible_eq (acc : List CSwordModuleInfo) (mod : CSwordModuleInfo) :
    appendIfBible acc mod = acc ++ (if keptModule mod = true then [mod] else []) := by
  unfold appendIfBible keptModule dynamicCastBible
  by_cases ht : mod.type = ModuleType.Bible ∨ mod.type = ModuleType.Commentary
  · cases hb : mod.isBibleModuleInfo
    · rcases ht with h | h <;> simp [h, hb]
    · rcases ht with h | h <;> simp [h, hb]
  · have h1 : mod.type ≠ ModuleType.Bible := fun h => ht (Or.inl h)
    have h2 : mod.type ≠ ModuleType.Commentary := fun h => ht (Or.inr h)
    simp [h1, h2]

theorem foldl_appendIfBible (modules : List CSwordModuleInfo) :
    ∀ acc : List CSwordModuleInfo,
      modules.foldl appendIfBible acc = acc ++ modules.filter keptModule := by
  induction modules with
  | nil => intro acc; simp
  | cons mod modules ih =>
    intro acc
    rw [List.foldl_cons, ih, appendIfBible_eq, List.filter_cons]
    by_cases hk : keptModule mod = true
    · simp [hk]
    · simp [hk]

theorem setKey_m_modules {W : Type} (widget : BtBibleKeyWidget W)
    (chooser after : CBibleKeyChooser W) (key : Option CSwordKey)
    (h : setKey widget chooser key = Except.ok after) :
    after.m_modules = chooser.m_modules := by
  unfold setKey at h
  cases hk : dynamicCastVerseKey key with
  | none => simp [hk, BT_ASSERT, bind, Except.bind] at h
  | some verseKey =>
    simp only [hk, BT_ASSERT, Option.isSome_some, if_true, bind, Except.bind] at h
    cases hw : chooser.w_ref with
    | none => simp [hw] at h
    | some w =>
      simp only [hw, pure, Except.pure] at h
      have := Except.ok.inj h
      rw [← this]

theorem setKey_ok {W : Type} (widget : BtBibleKeyWidget W)
    (chooser : CBibleKeyChooser W) (k : CSwordVerseKey) (w : W)
    (hk : chooser.m_key = some k) (hw : chooser.w_ref = some w) :
    ∃ after, refreshContent widget chooser = Except.ok after := by
  unfold refreshContent setKey
  simp [hk, hw, dynamicCastVerseKey, BT_ASSERT, bind, Except.bind, pure, Except.pure]

/-- The method `setModules` by cases on the widget pointer and on the kept
modules. -/
theorem setModules_eq {W : Type} (widget : BtBibleKeyWidget W)
    (chooser : CBibleKeyChooser W) (modules : List CSwordModuleInfo) (refresh : Bool) :
    setModules widget chooser modules refresh =
      match chooser.w_ref with
      | none =>
        if refresh then
          refreshContent widget { chooser with m_modules := modules.filter keptModule }
        else Except.ok { chooser with m_modules := modules.filter keptModule }
      | some w =>
        match (modules.filter keptModule).head? with
        | none => Except.error Fault.outOfBounds
        | some first =>
          if refresh then
            refreshContent widget
              { m_modules := modules.filter keptModule, m_key := chooser.m_key,
                w_ref := some (widget.setModule w (dynamicCastBible first)) }
          else
            Except.ok
              { m_modules := modules.filter keptModule, m_key := chooser.m_key,
                w_ref := some (widget.setModule w (dynamicCastBible first)) } := by
  unfold setModules
  simp only [foldl_appendIfBible, List.nil_append]
  cases hw : chooser.w_ref with
  | none =>
    simp only [pure, Except.pure, bind, Except.bind, hw]
  | some w =>
    cases hh : (modules.filter keptModule).head? with
    | none => simp [pure, Except.pure, bind, Except.bind, hw, hh]
    | some first =>
      simp only [pure, Except.pure, bind, Except.bind, hw, hh]

end CBibleKeyChooser

/-- C19 as stated fails once the key widget exists: for a module list without a kept
module (here a single module of another type) `setModules` clears the list and
then calls `m_modules.first()` on the empty list. -/
theorem setModules_m_modules_counterexample :
    CBibleKeyChooser.setModules recordingWidget
        { m_modules := [⟨1, ModuleType.Bible, true⟩], m_key := some ⟨7⟩,
          w_ref := some (some ⟨1, ModuleType.Bible, true⟩, some ⟨7⟩) }
        [⟨2, ModuleType.other 0, false⟩] false =
      Except.error Fault.outOfBounds := by decide

/-- C19, as amended: for every module list, whenever `setModules` returns, the
chooser's module list is exactly the sub-list, in the input order and with
duplicates kept, of the modules whose type is Bible or Commentary and that are
Bible-module objects, whatever the list held before. The call returns when the
key widget is not set up yet or the list holds at least one such module (and,
when a refresh is asked for, the chooser has a key and a widget); when the widget
exists and the list holds no such module, the call reads the first element of an
empty list instead of returning. -/
theorem setModules_m_modules {W : Type} (widget : BtBibleKeyWidget W)
    (chooser : CBibleKeyChooser W) (modules : List CSwordModuleInfo) (refresh : Bool) :
    (∀ after, CBibleKeyChooser.setModules widget chooser modules refresh = Except.ok after →
      after.m_modules = modules.filter keptModule) ∧
    ((chooser.w_ref = none ∨ ∃ m ∈ modules, keptModule m = true) →
      (refresh = false ∨ (chooser.m_key ≠ none ∧ chooser.w_ref ≠ none)) →
      ∃ after, CBibleKeyChooser.setModules widget chooser modules refresh = Except.ok after ∧
        after.m_modules = modules.filter keptModule) ∧
    (chooser.w_ref ≠ none → (∀ m ∈ modules, keptModule m = false) →
      CBibleKeyChooser.setModules widget chooser modules refresh =
        Except.error Fault.outOfBounds) := by
  have part1 : ∀ after,
      CBibleKeyChooser.setModules widget chooser modules refresh = Except.ok after →
      after.m_modules = modules.filter keptModule := by
    intro after h
    rw [CBibleKeyChooser.setModules_eq] at h
    cases hw : chooser.w_ref with
    | none =>
      simp only [hw] at h
      cases refresh with
      | false =>
        simp only [Bool.false_eq_true, if_false] at h
        rw [← Except.ok.inj h]
      | true =>
        simp only [if_true] at h
        exact CBibleKeyChooser.setKey_m_modules widget _ after _ h
    | some w =>
      simp only [hw] at h
      cases hh : (modules.filter keptModule).head? with
      | none => simp [hh] at h
      | some first =>
        simp only [hh] at h
        cases refresh with
        | false =>
          simp only [Bool.false_eq_true, if_false] at h
          rw [← Except.ok.inj h]
        | true =>
          simp only [if_true] at h
          exact CBibleKeyChooser.setKey_m_modules widget _ after _ h
  refine ⟨part1, ?_, ?_⟩
  · intro hret href
    suffices h : ∃ after,
        CBibleKeyChooser.setModules widget chooser modules refresh = Except.ok after by
      obtain ⟨after, ha⟩ := h
      exact ⟨after, ha, part1 after ha⟩
    rw [CBibleKeyChooser.setModules_eq]
    cases hw : chooser.w_ref with
    | none =>
      rcases href with hr | ⟨_, hw2⟩
      · simp [hr]
      · exact absurd hw hw2
    | some w =>
      have hex : ∃ m ∈ modules, keptModule m = true := by
        rcases hret with h | h
        · rw [hw] at h
          exact absurd h (by simp)
        · exact h
      obtain ⟨m, hm, hk⟩ := hex
      have hmem : m ∈ modules.filter keptModule := List.mem_filter.2 ⟨hm, hk⟩
      cases hh : (modules.filter keptModule).head? with
      | none =>
        rw [List.head?_eq_none_iff] at hh
        rw [hh] at hmem
        simp at hmem
      | some first =>
        simp only
        rcases href with hr | ⟨hkey, _⟩
        · simp [hr]
        · cases refresh with
          | false => simp
          | true =>
            simp only [if_true]
            obtain ⟨k, hk2⟩ := Option.ne_none_iff_exists'.1 hkey
            exact CBibleKeyChooser.setKey_ok widget _ k _ hk2 rfl
  · intro hw hnone
    rw [CBibleKeyChooser.setModules_eq]
    obtain ⟨w, hw2⟩ := Option.ne_none_iff_exists'.1 hw
    have hf : modules.filter keptModule = [] := by
      rw [List.filter_eq_nil_iff]
      intro m hm
      rw [hnone m hm]
      simp
    simp [hw2, hf]

theorem setModules_m_modules_witness :
    (CBibleKeyChooser.setModules recordingWidget
        { m_modules := [⟨9, ModuleType.Bible, true⟩], m_key := some ⟨7⟩,
          w_ref := some (none, none) }
        [⟨1, ModuleType.Commentary, true⟩, ⟨2, ModuleType.other 0, true⟩,
          ⟨3, ModuleType.Bible, false⟩, ⟨4, ModuleType.Bible, true⟩,
          ⟨1, ModuleType.Commentary, true⟩] true =
      Except.ok
        { m_modules := [⟨1, ModuleType.Commentary, true⟩, ⟨4, ModuleType.Bible, true⟩,
            ⟨1, ModuleType.Commentary, true⟩],
          m_key := some ⟨7⟩,
          w_ref := some (some ⟨1, ModuleType.Commentary, true⟩, some ⟨7⟩) }) ∧
      (∃ after, CBibleKeyChooser.setModules recordingWidget
          { m_modules := [⟨9, ModuleType.Bible, true⟩], m_key := none, w_ref := none }
          [⟨2, ModuleType.other 0, true⟩, ⟨4, ModuleType.Bible, true⟩] false =
            Except.ok after ∧
        after.m_modules =
          List.filter keptModule [⟨2, ModuleType.other 0, true⟩, ⟨4, ModuleType.Bible, true⟩]) :=
  ⟨by decide,
    (setModules_m_modules recordingWidget
      { m_modules := [⟨9, ModuleType.Bible, true⟩], m_key := none, w_ref := none }
      [⟨2, ModuleType.other 0, true⟩, ⟨4, ModuleType.Bible, true⟩] false).2.1
      (Or.inl rfl) (Or.inl rfl)⟩

end Bibletime
